import Mathlib

/-!
Verification of the scan, cache and navigation core of the dash-cli project
browser.  The TypeScript sources are shallowly embedded: each Lean definition
mirrors one source function.  Machine path strings are ordinary Lean strings;
JavaScript arrays become lists; fields that may be `undefined` in TypeScript
become `Option` values.
-/

namespace DashCli

/--
Embedding of the `Project` interface from `src/types.ts`:
name, path, `isGitRepo`, the optional `hasNestedProjects` flag (absent is
falsy, so it is modelled as `Bool` with `false` for absent, which the code
treats identically), and the optional `nestedProjects` array.
-/
inductive Project : Type where
  | mk (name : String) (path : String) (isGitRepo : Bool)
       (hasNestedProjects : Bool) (nestedProjects : Option (List Project))

def Project.name : Project → String
  | .mk n _ _ _ _ => n

def Project.path : Project → String
  | .mk _ p _ _ _ => p

def Project.isGitRepo : Project → Bool
  | .mk _ _ g _ _ => g

def Project.hasNestedProjects : Project → Bool
  | .mk _ _ _ h _ => h

def Project.nestedProjects : Project → Option (List Project)
  | .mk _ _ _ _ c => c

/-- The children actually iterated by the code: the guard
`if (p.nestedProjects)` iterates the array when the field is present and
skips it when absent. -/
def Project.children (p : Project) : List Project :=
  (p.nestedProjects).getD []

/--
Case-sensitive code-point comparison of character lists.  This is NOT the
comparator of the source: `sortProjects` sorts with
`a.name.localeCompare(b.name)`, whose collation is locale- and
ICU-dependent (for example, default collation puts `apple` before
`Zebra`, while code points put `Zebra` first).  The sort is therefore
embedded parametrically in the comparator (`nameLeBy`, `comparatorOk`
below); this code-point order serves only as one concrete consistent
comparator, to instantiate witnesses and for claims whose conclusions do
not depend on the comparator.
-/
def charListLe : List Char → List Char → Bool
  | [], _ => true
  | _ :: _, [] => false
  | a :: as, b :: bs => if a = b then charListLe as bs else decide (a.toNat < b.toNat)

/-- Code-point string comparison on the underlying character lists: a
concrete consistent comparator order. -/
def strLe (a b : String) : Bool := charListLe a.data b.data

/-- The node comparator at the concrete code-point order (one instance of
`nameLeBy` below). -/
def nameLe (a b : Project) : Prop := strLe a.name b.name = true

instance : DecidableRel nameLe := fun a b => instDecidableEqBool (strLe a.name b.name) true

/--
The consistency contract JavaScript `Array.prototype.sort` requires of a
comparator, stated for the induced not-greater relation: totality and
transitivity.  `localeCompare` satisfies it: ICU collation is a total
preorder on strings, whatever the locale.
-/
def comparatorOk (le : String → String → Bool) : Prop :=
  (∀ a b, le a b = true ∨ le b a = true) ∧
  (∀ a b c, le a b = true → le b c = true → le a c = true)

/-- The node comparator of `sortProjects` (`a.name.localeCompare(b.name)`),
parameterized by the string comparison the locale realizes. -/
def nameLeBy (le : String → String → Bool) (a b : Project) : Prop :=
  le a.name b.name = true

instance (le : String → String → Bool) : DecidableRel (nameLeBy le) :=
  fun a b => instDecidableEqBool (le a.name b.name) true

/--
Chain of fresh nodes built by `buildProjectTree` in `src/scanner.ts` when a
path segment is not yet in the node map: each created node stores the
segment as `name`, the joined path, `isGitRepo` true exactly on the last
segment, and a freshly created child is appended to its parent, setting the
parent fields `hasNestedProjects := true` and `nestedProjects := [child]`.
-/
def newChain (path s : String) : List String → Project
  | [] => .mk s path true false none
  | r :: rs => .mk s path false true (some [newChain (path ++ "/" ++ r) r rs])

/--
One step of the node-map construction in `buildProjectTree`
(`src/scanner.ts`): walk the relative path segments, reusing the existing
node at the same path when present (the node map is keyed on the absolute
path, and the join of parent path and segment name is injective, so lookup
by path equals lookup of the segment name among the siblings), otherwise
creating the node chain and appending it to the parent.  An existing node
reached at the last segment is marked `isGitRepo := true`; when a child is
created under an existing node the parent gets `hasNestedProjects := true`
and the child is appended to `nestedProjects` (created as an empty array
first when the field was absent).
-/
def insertSegs (parentPath : String) (forest : List Project) : List String → List Project
  | [] => forest
  | s :: rest =>
    let path := parentPath ++ "/" ++ s
    match forest.findIdx? (fun n => n.name == s) with
    | none => forest ++ [newChain path s rest]
    | some i =>
      let node := forest.getD i (Project.mk "" "" false false none)
      let node' :=
        match rest with
        | [] =>
          Project.mk node.name node.path true node.hasNestedProjects node.nestedProjects
        | r :: rs =>
          let children := (node.nestedProjects).getD []
          Project.mk node.name node.path node.isGitRepo
            (if children.any (fun c => c.name == r) then node.hasNestedProjects else true)
            (some (insertSegs path children (r :: rs)))
      forest.set i node'

mutual

/-- Recursive part of `sortProjects` from `src/scanner.ts`, at the
concrete code-point comparator: sort the `nestedProjects` of every node of
a list, recursively.  The faithful, comparator-parametric embedding is
`sortEachBy` below; this instance is kept for claims whose conclusions do
not depend on the comparator. -/
def sortEach : List Project → List Project
  | [] => []
  | p :: ps => sortOne p :: sortEach ps

/-- Sort the subtree of a single node, leaving the node fields intact
(concrete-comparator instance). -/
def sortOne : Project → Project
  | .mk n pa g hn none => .mk n pa g hn none
  | .mk n pa g hn (some l) => .mk n pa g hn (some (List.insertionSort nameLe (sortEach l)))

end

/--
`sortProjects` from `src/scanner.ts` at the concrete code-point
comparator.  JavaScript `Array.prototype.sort` with a consistent
comparator produces the unique stable sorted rearrangement, which is what
`List.insertionSort` computes; the comparator-parametric embedding is
`sortProjectsBy` below.
-/
def sortProjects (l : List Project) : List Project :=
  List.insertionSort nameLe (sortEach l)

mutual

/-- Recursive part of `sortProjects` from `src/scanner.ts`, parameterized
by the string comparison that `localeCompare` realizes in the running
locale: sort the `nestedProjects` of every node of a list, recursively. -/
def sortEachBy (le : String → String → Bool) : List Project → List Project
  | [] => []
  | p :: ps => sortOneBy le p :: sortEachBy le ps

/-- Sort the subtree of a single node with the comparator `le`, leaving
the node fields intact. -/
def sortOneBy (le : String → String → Bool) : Project → Project
  | .mk n pa g hn none => .mk n pa g hn none
  | .mk n pa g hn (some l) =>
      .mk n pa g hn (some (List.insertionSort (nameLeBy le) (sortEachBy le l)))

end

/--
`sortProjects` from `src/scanner.ts`, parameterized by the comparator:
recursively sort every `nestedProjects` array, then sort the list itself
by name with `a.name.localeCompare(b.name)`.  JavaScript
`Array.prototype.sort` is stable and, with a consistent comparator,
produces the unique stable sorted rearrangement, which is what
`List.insertionSort` computes for the same comparator order.
-/
def sortProjectsBy (le : String → String → Bool) (l : List Project) : List Project :=
  List.insertionSort (nameLeBy le) (sortEachBy le l)

/--
`buildProjectTree` from `src/scanner.ts` at the concrete code-point
comparator (see `buildProjectTreeBy` for the faithful comparator-parametric
embedding).  The found-repository paths are given as lists of
directory-name segments relative to the projects root (the source splits
`relative(projectsDir, fullPath)` on slashes); absolute paths are rebuilt
by joining with `/`.  The node map keyed on absolute paths, with children
appended to parents at creation time and root nodes collected in insertion
order, is exactly a fold of `insertSegs` starting from the empty forest.
Finally every list of children is sorted, recursively.
-/
def buildProjectTree (projectSegPaths : List (List String)) (projectsDir : String) : List Project :=
  sortProjects (projectSegPaths.foldl (fun forest segs => insertSegs projectsDir forest segs) [])

/--
`buildProjectTree` from `src/scanner.ts`, parameterized by the string
comparison `le` that `localeCompare` realizes: the node-map fold followed
by the recursive sort with the comparator `(a, b) => a.name.localeCompare(b.name)`.
-/
def buildProjectTreeBy (le : String → String → Bool)
    (projectSegPaths : List (List String)) (projectsDir : String) : List Project :=
  sortProjectsBy le
    (projectSegPaths.foldl (fun forest segs => insertSegs projectsDir forest segs) [])

mutual

/-- The inner `traverse` of `collectNestedGitProjects`
(`src/components/App.tsx`): emit the node itself when it is a repository,
with `name` replaced by the accumulated relative display path and the
nesting fields cleared, then recurse into the children. -/
def collectTraverse : Project → String → List Project
  | .mk _ pa g _ none, rel => if g then [.mk rel pa g false none] else []
  | .mk _ pa g _ (some l), rel =>
      (if g then [.mk rel pa g false none] else []) ++ collectTraverseList l rel

/-- Traversal of a child list: each child extends the relative path with its
own name, joined by `/` unless the accumulated path is empty (the source
tests truthiness of the accumulated string). -/
def collectTraverseList : List Project → String → List Project
  | [], _ => []
  | c :: cs, rel =>
      collectTraverse c (if rel = "" then c.name else rel ++ "/" ++ c.name) ++
        collectTraverseList cs rel

end

/--
`collectNestedGitProjects` from `src/components/App.tsx`: flatten the
repositories strictly below `project` (the node itself is never emitted,
traversal starts from the children, each child starting with its own name
as display path).  The `basePath` argument is unused by the source as well.
-/
def collectNestedGitProjects (project : Project) (basePath : String) : List Project :=
  match project.nestedProjects with
  | none => []
  | some l => collectTraverseList l ""

mutual

/-- Specification-side enumeration of the strict descendants of a node (the
descendants reachable through its children), each paired with the chain of
name segments leading from the node down to it, in depth-first preorder. -/
def descChains : Project → List (List String × Project)
  | .mk _ _ _ _ none => []
  | .mk _ _ _ _ (some l) => descChainsList l

/-- Depth-first enumeration of a child list: each child contributes itself
followed by its own descendants, with the child name prefixed to every
chain. -/
def descChainsList : List Project → List (List String × Project)
  | [] => []
  | c :: cs =>
      ([c.name], c) :: ((descChains c).map fun x => (c.name :: x.1, x.2)) ++
        descChainsList cs

end

/-- All strict descendants of a node, in depth-first preorder. -/
def subnodes (p : Project) : List Project := (descChains p).map fun x => x.2

/-- A node of a tree: the node itself or one of its strict descendants. -/
def Subnode (q p : Project) : Prop := q = p ∨ q ∈ subnodes p

/-- The `/`-joined rendering of a chain of name segments, written from the
specification: flattening computes the display name as the slash-joined
path of name segments from the node down to the repository. -/
def joinSegs : List String → String
  | [] => ""
  | [s] => s
  | s :: s2 :: rest => s ++ "/" ++ joinSegs (s2 :: rest)

/--
Specification-side flattening, written from the specification words: the
`isRepo = true` strict descendants of the node, in depth-first order, each
as the pair of its slash-joined display name and its path.
-/
def specFlatten (p : Project) : List (String × String) :=
  ((descChains p).filter fun x => x.2.isGitRepo).map fun x => (joinSegs x.1, x.2.path)

/-- A usable directory-name segment: nonempty and without a slash.  The
segments produced by splitting a relative path on slash separators have
this shape. -/
def segOk (s : String) : Bool := !(s.data.isEmpty) && !(s.data.contains '/')

/-- Strict version of a comparator order, used to state the alphabetical
depth-first order of the flattened chains: not greater, and distinct. -/
def strLtBy (le : String → String → Bool) (a b : String) : Prop :=
  le a b = true ∧ a ≠ b

/-- Sibling names are pairwise distinct. -/
def namesNodupB : List Project → Bool
  | [] => true
  | p :: ps => !(ps.any fun q => q.name == p.name) && namesNodupB ps

mutual

/-- Structural well-formedness of a scanned tree: every name is a usable
segment and sibling names are pairwise distinct, recursively. -/
def treeOk : Project → Bool
  | .mk n _ _ _ none => segOk n
  | .mk n _ _ _ (some l) => segOk n && namesNodupB l && treeOkList l

/-- Well-formedness of a forest, including distinctness of the root names
of the forest itself at each level below (the top-level distinctness of a
forest is recorded separately by its parent). -/
def treeOkList : List Project → Bool
  | [] => true
  | p :: ps => treeOk p && treeOkList ps

end

mutual

/-- Sortedness of a tree with respect to a comparator order: every list of
children is sorted by name in that order, recursively. -/
def sortedTreeBy (le : String → String → Bool) : Project → Prop
  | .mk _ _ _ _ none => True
  | .mk _ _ _ _ (some l) => List.Pairwise (nameLeBy le) l ∧ sortedTreeListBy le l

/-- Sortedness of every tree of a forest with respect to a comparator
order. -/
def sortedTreeListBy (le : String → String → Bool) : List Project → Prop
  | [] => True
  | p :: ps => sortedTreeBy le p ∧ sortedTreeListBy le ps

end

mutual

/-- The flag invariant of claim C10 on a single node together with all of
its descendants: `hasNestedProjects` is `true` exactly when the
`nestedProjects` field is present and nonempty. -/
def flagInv : Project → Prop
  | .mk _ _ _ h none => h = false
  | .mk _ _ _ h (some l) => (h = true ↔ l ≠ []) ∧ flagInvList l

/-- The flag invariant on every tree of a forest. -/
def flagInvList : List Project → Prop
  | [] => True
  | p :: ps => flagInv p ∧ flagInvList ps

end

/-! ## Cache store (src/cache.ts) -/

/-- The record persisted by the cache file, from the `CacheData` interface
of `src/cache.ts`. -/
structure CacheData where
  projects : List Project
  projectsDir : String
  maxDepth : Nat
  skipDirs : String
  timestamp : Nat

/-- The observable states of the cache file: missing (`existsSync` false),
unreadable or unparsable (the `try` block throws), or a parsed record. -/
inductive CacheFile where
  | missing
  | corrupt
  | stored (d : CacheData)

/--
`loadCache` from `src/cache.ts` (and the identical validation in
`loadCacheAsync`): return `null` when the file is missing or fails to read
or parse; otherwise compare the three stored parameters against the current
ones with exact equality and return the stored projects only on a full
match.
-/
def loadCache (file : CacheFile) (projectsDir : String) (maxDepth : Nat)
    (skipDirs : String) : Option (List Project) :=
  match file with
  | .missing => none
  | .corrupt => none
  | .stored d =>
    if d.projectsDir ≠ projectsDir ∨ d.maxDepth ≠ maxDepth ∨ d.skipDirs ≠ skipDirs then
      none
    else
      some d.projects

/--
`saveCache` from `src/cache.ts`: overwrite the single cache record with the
projects, the three parameters and a timestamp.  The JSON round trip is the
identity on the record as modelled (absent optional fields are dropped by
`JSON.stringify` and read back as absent).
-/
def saveCache (projects : List Project) (projectsDir : String) (maxDepth : Nat)
    (skipDirs : String) (timestamp : Nat) : CacheFile :=
  .stored ⟨projects, projectsDir, maxDepth, skipDirs, timestamp⟩

/-! ## Strings and small JavaScript helpers -/

/-- The ASCII whitespace characters matched by the regular-expression class
of blanks used in the shortcut command patterns. -/
def jsWhitespace (c : Char) : Bool :=
  c = ' ' || c = '\t' || c = '\n' || c = '\r' || c = '\x0B' || c = '\x0C'

/-- JavaScript `String.prototype.startsWith`, on the character lists. -/
def strStartsWith (s pre : String) : Bool := pre.data.isPrefixOf s.data

/-- Substring containment on character lists, the model of JavaScript
`String.prototype.includes`. -/
def listIncludes (hay needle : List Char) : Bool :=
  needle.isPrefixOf hay ||
    match hay with
    | [] => false
    | _ :: t => listIncludes t needle

/-- JavaScript `String.prototype.includes`. -/
def strIncludes (hay needle : String) : Bool := listIncludes hay.data needle.data

/-- JavaScript `String.prototype.toLowerCase`, modelled character by
character. -/
def strToLower (s : String) : String := String.mk (s.data.map Char.toLower)

/--
A concrete consistent comparator that, like default-locale `localeCompare`
under ICU, orders case-insensitively first (so `apple` comes before
`Zebra`), breaking ties between case-variants by code point.  Used as the
counterexample comparator showing the scanned trees are not sorted in
case-sensitive lexical order.
-/
def caseInsLe (a b : String) : Bool :=
  if strToLower a = strToLower b then strLe a b
  else strLe (strToLower a) (strToLower b)

/-- Node `path.basename`, modelled for plain slash-separated paths without
a trailing slash: the part after the last slash. -/
def jsBasename (s : String) : String :=
  String.mk ((s.data.reverse.takeWhile fun c => c ≠ '/').reverse)

/-- Node `path.relative`, modelled for plain absolute slash-separated
paths: the target stripped of the base prefix, empty when they are equal,
and the target itself when it does not lie below the base. -/
def jsRelative (base target : String) : String :=
  if target = base then ""
  else if strStartsWith target (base ++ "/") then
    String.mk (target.data.drop (base.data.length + 1))
  else target

/-- Replace backslashes by slashes, from the display-name normalisation. -/
def backslashToSlash (s : String) : String :=
  String.mk (s.data.map fun c => if c = '\\' then '/' else c)

/-- `getDisplayName` from the navigation module: the path relative to the
projects directory with backslashes normalised, or the basename when the
relative path is empty. -/
def getDisplayName (path projectsDir : String) : String :=
  let rel := backslashToSlash (jsRelative projectsDir path)
  if rel = "" then jsBasename path else rel

/--
The anchored exact pattern of `exactShortcutPaths`: a command that is
exactly the word `cd`, one or more blanks, and a double-quoted nonempty
quote-free path, capturing the path.
-/
def parseExactCd (s : String) : Option String :=
  match s.data with
  | 'c' :: 'd' :: rest =>
    if (rest.takeWhile jsWhitespace).isEmpty then none
    else
      match rest.dropWhile jsWhitespace with
      | '"' :: more =>
        let inner := more.takeWhile fun c => c ≠ '"'
        match more.dropWhile fun c => c ≠ '"' with
        | ['"'] => if inner.isEmpty then none else some (String.mk inner)
        | _ => none
      | _ => none
  | _ => none

/--
The loose pattern used by `triggersByPath` and the shortcuts section: the
word `cd`, one or more blanks, an optional opening double quote, a nonempty
quote-free path (captured), and an optional closing double quote at the end
of the string.
-/
def parseCdLoose (s : String) : Option String :=
  match s.data with
  | 'c' :: 'd' :: rest =>
    if (rest.takeWhile jsWhitespace).isEmpty then none
    else
      let afterWs := rest.dropWhile jsWhitespace
      let body :=
        match afterWs with
        | '"' :: more => more
        | _ => afterWs
      let inner := body.takeWhile fun c => c ≠ '"'
      if inner.isEmpty then none
      else
        match body.dropWhile fun c => c ≠ '"' with
        | [] => some (String.mk inner)
        | ['"'] => some (String.mk inner)
        | _ => none
  | _ => none

/-! ## List model (navigation module) -/

/-- The shortcut records consumed by the list builder: identifier, display
name, trigger word, case sensitivity flag and the stored command list. -/
structure ShortcutEntry where
  id : String
  name : String
  trigger : String
  caseSensitive : Bool
  command : List String

/-- The `HistoryEntry` interface: a recently visited path with its display
name and timestamp. -/
structure HistoryEntry where
  path : String
  displayName : String
  lastUsed : Nat

/-- The tag of a `ListItem`. -/
inductive ItemType where
  | header
  | project
  | back
deriving DecidableEq

/-- The `ListItem` interface of the navigation module; optional fields are
`Option` values, absent boolean fields are `false`. -/
structure ListItem where
  type : ItemType
  label : String
  path : Option String := none
  selectionKey : Option String := none
  project : Option Project := none
  isShortcut : Bool := false
  isRecent : Bool := false
  triggers : Option (List String) := none
  shortcutId : Option String := none

/--
`exactShortcutPaths`: the paths of shortcuts whose stored command is a
single exact change-directory instruction (one command matching the
anchored quoted pattern).  Only these paths hide entries of the Recent
section.
-/
def exactShortcutPaths (shortcuts : List ShortcutEntry) : List String :=
  shortcuts.filterMap fun sc =>
    match sc.command with
    | [cmd] => parseExactCd cmd
    | _ => none

/--
`triggersByPath`: the triggers of every shortcut whose first command starts
with `cd ` and matches the loose pattern capturing the given path.
-/
def triggersByPath (shortcuts : List ShortcutEntry) (path : String) : List String :=
  shortcuts.filterMap fun sc =>
    match sc.command.head? with
    | none => none
    | some firstCmd =>
      if strStartsWith firstCmd "cd " then
        match parseCdLoose firstCmd with
        | some p => if p = path then some sc.trigger else none
        | none => none
      else none

mutual

/-- Depth-first enumeration of every node of a forest, in the order the
`allProjectsMap` traversal visits them. -/
def allNodesList : List Project → List Project
  | [] => []
  | p :: ps => p :: allNodesOf p ++ allNodesList ps

/-- Depth-first enumeration of the strict descendants of one node. -/
def allNodesOf : Project → List Project
  | .mk _ _ _ _ none => []
  | .mk _ _ _ _ (some l) => allNodesList l

end

/-- `allProjectsMap.get`: the traversal writes every node keyed by path, a
later write overwriting an earlier one, so the lookup returns the last node
of the traversal carrying the path. -/
def allProjectsLookup (projects : Option (List Project)) (path : String) : Option Project :=
  match projects with
  | none => none
  | some l => ((allNodesList l).filter fun p => p.path == path).getLast?

/-- The path extracted for a shortcuts-section item: the first command
starting with `cd `, matched against the loose pattern, defaulting to the
empty string. -/
def shortcutScPath (sc : ShortcutEntry) : String :=
  match sc.command.find? fun c => strStartsWith c "cd " with
  | none => ""
  | some cdCmd => (parseCdLoose cdCmd).getD ""

/-- One item of the Shortcuts section. -/
def shortcutItem (projects : Option (List Project)) (sc : ShortcutEntry) : ListItem :=
  let scPath := shortcutScPath sc
  let project := if scPath = "" then none else allProjectsLookup projects scPath
  { type := .project, label := sc.name, path := some scPath,
    selectionKey := some ("sc-" ++ sc.id),
    triggers := some [sc.trigger],
    shortcutId := some sc.id,
    project := some (project.getD (Project.mk sc.name scPath true false none)),
    isShortcut := true, isRecent := false }

/-- One item of the Recent section. -/
def recentItem (projects : Option (List Project)) (e : HistoryEntry) : ListItem :=
  { type := .project, label := e.displayName, path := some e.path,
    selectionKey := some ("recent-" ++ e.path),
    project := some ((allProjectsLookup projects e.path).getD
      (Project.mk (jsBasename e.path) e.path true false none)),
    isShortcut := false, isRecent := true }

/-- The Recent block: the kept entries are those recent entries whose path
has no exact shortcut match, and the Recent header is emitted exactly when
at least one entry is kept (the source pushes the header just before the
first kept entry). -/
def recentSection (shortcuts : List ShortcutEntry) (recents : List HistoryEntry)
    (projects : Option (List Project)) : List ListItem :=
  let kept := (recents.filter fun e =>
      !((exactShortcutPaths shortcuts).contains e.path)).map (recentItem projects)
  match kept with
  | [] => []
  | _ => { type := ItemType.header, label := "Recent" } :: kept

/-- One item of the current-level section. -/
def mainItem (shortcuts : List ShortcutEntry) (recentPathsList : List String)
    (p : Project) : ListItem :=
  let triggers := triggersByPath shortcuts p.path
  let isSc := !triggers.isEmpty
  let isRec := recentPathsList.contains p.path && !isSc
  { type := .project, label := p.name, path := some p.path,
    selectionKey := some p.path, project := some p,
    isShortcut := isSc, isRecent := isRec,
    triggers := if triggers.isEmpty then none else some triggers }

/-- The trailing Back item shown below the current level when not at the
root. -/
def backListItem : ListItem :=
  { type := .back, label := "Back", selectionKey := some "__back__" }

/--
The unfiltered sectioned list of the navigation module: the Shortcuts
section (root only, feature enabled, some shortcuts, no search term), the
Recent section (root only, feature enabled, some recent entries, no search
term, entries with an exact shortcut match excluded), the current-level
header and entries, and a trailing Back item when not at the root.
-/
def buildUnfilteredItems (isAtRoot showShortcuts showRecent : Bool)
    (searchTerm : String) (shortcuts : List ShortcutEntry)
    (recents : List HistoryEntry) (projects : Option (List Project))
    (currentProjects : List Project) (parentPath : Option String)
    (projectsDir : String) : List ListItem :=
  (if isAtRoot && showShortcuts && !shortcuts.isEmpty && searchTerm = "" then
      { type := ItemType.header, label := "Shortcuts" } ::
        shortcuts.map (shortcutItem projects)
    else []) ++
  (if isAtRoot && showRecent && !recents.isEmpty && searchTerm = "" then
      recentSection shortcuts recents projects
    else []) ++
  ({ type := ItemType.header,
     label := if isAtRoot then "All Projects"
              else getDisplayName (parentPath.getD "") projectsDir } ::
    currentProjects.map (mainItem shortcuts (recents.map HistoryEntry.path))) ++
  (if isAtRoot then [] else [backListItem])

/-- JavaScript `Map.set` on an association list: update the value in place
when the key is present, append otherwise. -/
def mapSet (m : List (String × Nat)) (k : String) (v : Nat) : List (String × Nat) :=
  if m.any fun e => e.1 == k then
    m.map fun e => if e.1 == k then (k, v) else e
  else m ++ [(k, v)]

/-- JavaScript `Map.get` on an association list. -/
def mapLookup (m : List (String × Nat)) (k : String) : Option Nat :=
  (m.find? fun e => e.1 == k).map fun e => e.2

/-- The key-to-index map built alongside a list: every keyed item is
registered at its index at the moment it is appended, which is its final
index. -/
def buildKeyMap (items : List ListItem) : List (String × Nat) :=
  items.enum.foldl
    (fun m x =>
      match x.2.selectionKey with
      | none => m
      | some k => mapSet m k x.1)
    []

/-! ## Search filter (navigation module) -/

/-- Match of one item against the lowered search term: the lowered label
contains the term. -/
def itemMatches (low : String) (it : ListItem) : Bool :=
  strIncludes (strToLower it.label) low

/-- The loop state of the filter memo: the output list and key map, the
header of the current section, whether that header was already emitted, and
the last Back item seen. -/
structure FilterAcc where
  filtered : List ListItem
  keyMap : List (String × Nat)
  currentHeader : Option ListItem
  headerAdded : Bool
  backItem : Option ListItem

/-- One iteration of the filter loop: remember headers, set aside the Back
item, and append a matching entry, preceded by its section header the first
time the section produces a match; a kept entry registers its selection key
at its output index. -/
def filterStep (low : String) (acc : FilterAcc) (item : ListItem) : FilterAcc :=
  match item.type with
  | .header => { acc with currentHeader := some item, headerAdded := false }
  | .back => { acc with backItem := some item }
  | .project =>
    if itemMatches low item then
      let acc1 :=
        match acc.currentHeader, acc.headerAdded with
        | some h, false =>
            { acc with filtered := acc.filtered ++ [h], headerAdded := true }
        | _, _ => acc
      { acc1 with
        filtered := acc1.filtered ++ [item],
        keyMap :=
          match item.selectionKey with
          | some k => mapSet acc1.keyMap k acc1.filtered.length
          | none => acc1.keyMap }
    else acc

/--
The filter memo of the navigation module: the empty search term returns the
unfiltered list and key map unchanged; otherwise the loop keeps the entries
whose lowered label contains the lowered term, each preceded once by its
section header, and finally appends the Back item, registering it under the
`__back__` key.
-/
def filterItems (searchTerm : String) (unfiltered : List ListItem)
    (unfilteredKeyMap : List (String × Nat)) : List ListItem × List (String × Nat) :=
  if searchTerm = "" then (unfiltered, unfilteredKeyMap)
  else
    let low := strToLower searchTerm
    let acc := unfiltered.foldl (filterStep low) ⟨[], [], none, false, none⟩
    match acc.backItem with
    | none => (acc.filtered, acc.keyMap)
    | some b => (acc.filtered ++ [b], mapSet acc.keyMap "__back__" acc.filtered.length)

/-- The entries of the section that starts at the current position: the
entry items before the next header. -/
def sectionEntries (l : List ListItem) : List ListItem :=
  (l.takeWhile fun it => !(it.type == ItemType.header)).filter
    fun it => it.type == ItemType.project

/--
Specification-side filter, written from the specification words: keep
exactly the entries whose label contains the term case-insensitively, keep
a header exactly when at least one entry beneath it survives, and drop Back
items (the last Back item is appended at the end separately).
-/
def specFilter (low : String) : List ListItem → List ListItem
  | [] => []
  | it :: rest =>
    match it.type with
    | .header =>
      if (sectionEntries rest).any (itemMatches low) then it :: specFilter low rest
      else specFilter low rest
    | .project =>
      if itemMatches low it then it :: specFilter low rest else specFilter low rest
    | .back => specFilter low rest

/-- The last Back item of a list. -/
def lastBack (l : List ListItem) : Option ListItem :=
  (l.filter fun it => it.type == ItemType.back).getLast?

/-- The header the filter loop still owes to the output: the current
section header when it was not emitted yet. -/
def pendingList (acc : FilterAcc) : List ListItem :=
  match acc.currentHeader, acc.headerAdded with
  | some h, false => [h]
  | _, _ => []

/-- Specification-side filtering of a whole list, from the specification
words: identity on the empty term, otherwise the section-wise filter also
followed by the surviving Back item at the end. -/
def specFilterItems (searchTerm : String) (l : List ListItem) : List ListItem :=
  if searchTerm = "" then l
  else specFilter (strToLower searchTerm) l ++ (lastBack l).toList

/-! ## Selection tracker (navigation module) -/

/-- `selectableIndices`: the indices of the items that are not headers (the
source maps headers to a sentinel and filters it out). -/
def selectableIndices (items : List ListItem) : List Nat :=
  items.enum.filterMap fun x =>
    if !(x.2.type == ItemType.header) then some x.1 else none

/--
The derivation of `selectedIndex` from `selectedKey`: a falsy key (absent
or empty) resolves to the first selectable index, defaulting to `0`; a key
present in the key-to-index map resolves to its mapped index; a key absent
from the map falls back to the first selectable index, defaulting to `0`.
-/
def resolveSelectedIndex (selectedKey : Option String)
    (keyToIndex : List (String × Nat)) (items : List ListItem) : Nat :=
  match selectedKey with
  | none => (selectableIndices items).headD 0
  | some k =>
    if k = "" then (selectableIndices items).headD 0
    else
      match mapLookup keyToIndex k with
      | some idx => idx
      | none => (selectableIndices items).headD 0

/-! ## Navigation stack (navigation module) -/

/-- The `NavLevel` interface: the projects of the level, the parent path
(`none` at the root), and the viewport state saved for restoration. -/
structure NavLevel where
  projects : List Project
  parentPath : Option String
  savedScrollOffset : Nat
  savedSelectedKey : Option String

/-- The navigation-relevant component state: the stack (top at the end,
never empty in the application), the live scroll offset and selection key,
the search term, and the memo of flattened subtrees. -/
structure AppNavState where
  navStack : List NavLevel
  scrollOffset : Nat
  selectedKey : Option String
  searchTerm : String
  nestedCache : List (String × List Project)

/-- `nestedCache.get`. -/
def cacheGet (cache : List (String × List Project)) (k : String) : Option (List Project) :=
  (cache.find? fun e => e.1 == k).map fun e => e.2

/-- `nestedCache.set`. -/
def cacheSet (cache : List (String × List Project)) (k : String)
    (v : List Project) : List (String × List Project) :=
  if cache.any fun e => e.1 == k then
    cache.map fun e => if e.1 == k then (k, v) else e
  else cache ++ [(k, v)]

/--
`drillDown` from the navigation module: when the node has nested projects,
flatten them (through the memo), and if the flat list is nonempty, save the
live scroll offset and selection key into the current top frame, push a new
frame for the node with a reset viewport, reset the live scroll offset and
selection, and clear the search term.
-/
def drillDown (s : AppNavState) (project : Project) : AppNavState :=
  if project.hasNestedProjects then
    let cached := cacheGet s.nestedCache project.path
    let nested :=
      match cached with
      | some l => l
      | none => collectNestedGitProjects project project.path
    let cache' :=
      match cached with
      | some _ => s.nestedCache
      | none => cacheSet s.nestedCache project.path nested
    if nested.isEmpty then { s with nestedCache := cache' }
    else
      let currentLevel := (s.navStack.getLast?).getD ⟨[], none, 0, none⟩
      let updatedStack := s.navStack.dropLast ++
        [{ currentLevel with savedScrollOffset := s.scrollOffset,
                             savedSelectedKey := s.selectedKey }]
      { navStack := updatedStack ++ [⟨nested, some project.path, 0, none⟩],
        scrollOffset := 0, selectedKey := none, searchTerm := "",
        nestedCache := cache' }
  else s

/--
`goBack` from the navigation module: when more than one frame remains, drop
the top frame and restore the scroll offset and selection key saved in the
frame below it, clearing the search term; with a single frame the function
does nothing.
-/
def goBack (s : AppNavState) : AppNavState :=
  if s.navStack.length > 1 then
    let previousLevel := (s.navStack[s.navStack.length - 2]?).getD ⟨[], none, 0, none⟩
    { s with navStack := s.navStack.dropLast,
             scrollOffset := previousLevel.savedScrollOffset,
             selectedKey := previousLevel.savedSelectedKey,
             searchTerm := "" }
  else s

/-! ## Scan and cache coordination (mount effect of the App component) -/

/-- The state touched by the mount effect: the displayed projects, the
refresh spinner flag, the session-local flag recording that some result was
shown, the cancellation flag, and the cache record persisted by the scan
completion. -/
structure MountState where
  displayedProjects : Option (List Project)
  isRefreshing : Bool
  hasShownResults : Bool
  aborted : Bool
  savedCache : Option (List Project)

/-- The completion events of the mount effect: the cache load resolves
(possibly with no usable cache), the scan resolves, or the effect is
cleaned up, setting the cancellation flag. -/
inductive MountEvent where
  | cacheLoaded (cached : Option (List Project))
  | scanCompleted (scanned : List Project)
  | cleanup

/--
One completion step of the mount effect: a cache result is displayed only
when it is present, cancellation was not requested, and nothing was shown
yet, and it marks results as shown; a scan result, unless cancelled,
is always displayed, stops the spinner, marks results as shown and is
persisted to the cache; cleanup sets the cancellation flag.
-/
def mountStep (s : MountState) (e : MountEvent) : MountState :=
  match e with
  | .cacheLoaded cached =>
    match cached with
    | some l =>
      if !s.aborted && !s.hasShownResults then
        { s with displayedProjects := some l, hasShownResults := true }
      else s
    | none => s
  | .scanCompleted scanned =>
    if !s.aborted then
      { s with displayedProjects := some scanned, isRefreshing := false,
               hasShownResults := true, savedCache := some scanned }
    else s
  | .cleanup => { s with aborted := true }

/-! ## Theorems -/

/--
Claim C2: `load` returns absent exactly when the cache file is missing, the
stored record fails to parse, or the stored parameters differ from the
given ones in at least one of the three fields, compared exactly; in
particular a cache saved under one parameter triple is absent under any
different triple.
-/
theorem loadCache_absent_iff (file : CacheFile) (dir : String) (depth : Nat) (skip : String) :
    (loadCache file dir depth skip = none ↔
      file = .missing ∨ file = .corrupt ∨
        ∃ d, file = .stored d ∧
          ¬(d.projectsDir = dir ∧ d.maxDepth = depth ∧ d.skipDirs = skip)) ∧
    (∀ (P : List Project) (dir2 : String) (depth2 : Nat) (skip2 : String) (ts : Nat),
      ¬(dir2 = dir ∧ depth2 = depth ∧ skip2 = skip) →
        loadCache (saveCache P dir2 depth2 skip2 ts) dir depth skip = none) := by
  constructor
  · cases file with
    | missing => simp [loadCache]
    | corrupt => simp [loadCache]
    | stored d =>
      have hdef : loadCache (.stored d) dir depth skip =
          (if d.projectsDir ≠ dir ∨ d.maxDepth ≠ depth ∨ d.skipDirs ≠ skip then none
           else some d.projects) := rfl
      rw [hdef]
      by_cases h : d.projectsDir = dir ∧ d.maxDepth = depth ∧ d.skipDirs = skip
      · rw [if_neg (by tauto)]
        constructor
        · intro hc; exact absurd hc (by simp)
        · rintro (hc | hc | ⟨d2, hd2, hne⟩)
          · exact absurd hc (by simp)
          · exact absurd hc (by simp)
          · cases hd2
            exact absurd h hne
      · rw [if_pos (by tauto)]
        exact ⟨fun _ => Or.inr (Or.inr ⟨d, rfl, h⟩), fun _ => rfl⟩
  · intro P dir2 depth2 skip2 ts hne
    have hdef : loadCache (saveCache P dir2 depth2 skip2 ts) dir depth skip =
        (if dir2 ≠ dir ∨ depth2 ≠ depth ∨ skip2 ≠ skip then none else some P) := rfl
    rw [hdef, if_pos (by tauto)]

/-- Witness for claim C2 at a concrete input: a cache saved for the old
projects directory is absent after the directory changes. -/
theorem loadCache_absent_iff_witness :
    loadCache (saveCache [] "/old" 4 "node_modules" 0) "/new" 4 "node_modules" = none :=
  (loadCache_absent_iff (saveCache [] "/old" 4 "node_modules" 0) "/new" 4 "node_modules").2
    [] "/old" 4 "node_modules" 0 (by simp)

/--
Claim C3: cache round trip; saving any project sequence under a parameter
triple and loading with the same triple returns exactly that sequence.
-/
theorem loadCache_saveCache (P : List Project) (dir : String) (depth : Nat)
    (skip : String) (ts : Nat) :
    loadCache (saveCache P dir depth skip ts) dir depth skip = some P := by
  simp [loadCache, saveCache]

/--
Claim C8: during the initial load, a cache result is displayed only when it
is present, cancellation was not requested and no result was shown yet in
the session; once the scan result was displayed a later cache completion
never changes the displayed projects; an uncancelled scan completion always
replaces the displayed projects and persists them; results arriving after
cancellation are discarded without changing the state, and cancellation is
never unset by any event.
-/
theorem mountStep_spec (s : MountState) (r : List Project) (c : Option (List Project)) :
    (mountStep s (.cacheLoaded none) = s) ∧
    (s.hasShownResults = true → mountStep s (.cacheLoaded c) = s) ∧
    (s.aborted = true →
      mountStep s (.cacheLoaded c) = s ∧ mountStep s (.scanCompleted r) = s) ∧
    (s.aborted = false → s.hasShownResults = false →
      mountStep s (.cacheLoaded (some r)) =
        { s with displayedProjects := some r, hasShownResults := true }) ∧
    (s.aborted = false →
      mountStep s (.scanCompleted r) =
        { s with displayedProjects := some r, isRefreshing := false,
                 hasShownResults := true, savedCache := some r }) ∧
    (s.aborted = false →
      (mountStep (mountStep s (.scanCompleted r)) (.cacheLoaded c)).displayedProjects =
        some r) ∧
    ((mountStep s .cleanup).aborted = true) ∧
    (∀ e : MountEvent, (mountStep s e).aborted = s.aborted ∨ e = .cleanup) := by
  refine ⟨rfl, ?_, ?_, ?_, ?_, ?_, rfl, ?_⟩
  · intro hshown
    cases c with
    | none => rfl
    | some l => simp [mountStep, hshown]
  · intro hab
    refine ⟨?_, ?_⟩
    · cases c with
      | none => rfl
      | some l => simp [mountStep, hab]
    · simp [mountStep, hab]
  · intro hab hshown
    simp [mountStep, hab, hshown]
  · intro hab
    simp [mountStep, hab]
  · intro hab
    cases c with
    | none => simp [mountStep, hab]
    | some l => simp [mountStep, hab]
  · intro e
    cases e with
    | cacheLoaded c2 =>
      refine Or.inl ?_
      cases c2 with
      | none => rfl
      | some l => simp only [mountStep]; split <;> rfl
    | scanCompleted r2 => refine Or.inl ?_; simp only [mountStep]; split <;> rfl
    | cleanup => exact Or.inr rfl

/-- Witness for claim C8 at a concrete state: an uncancelled scan
completion replaces the displayed projects, and a cache completing later
does not reinstate the cache result. -/
theorem mountStep_spec_witness :
    (mountStep ⟨none, true, false, false, none⟩
        (.scanCompleted [Project.mk "a" "/R/a" true false none])).displayedProjects =
      some [Project.mk "a" "/R/a" true false none] ∧
    (mountStep (mountStep ⟨none, true, false, false, none⟩
        (.scanCompleted [Project.mk "a" "/R/a" true false none]))
        (.cacheLoaded (some []))).displayedProjects =
      some [Project.mk "a" "/R/a" true false none] := by
  have h := mountStep_spec ⟨none, true, false, false, none⟩
    [Project.mk "a" "/R/a" true false none] (some [])
  refine ⟨?_, h.2.2.2.2.2.1 rfl⟩
  rw [h.2.2.2.2.1 rfl]

/--
Claim C7: saving the viewport into the top frame happens inside `drillDown`
just before the push, and `goBack` pops exactly one frame and restores the
scroll offset and selection key that were live immediately before the push;
`goBack` with a single frame is the identity, so the root level is never
popped.
-/
theorem drillDown_goBack (s : AppNavState) (p : Project)
    (hstack : s.navStack ≠ [])
    (hflag : p.hasNestedProjects = true)
    (hne : (match cacheGet s.nestedCache p.path with
            | some l => l
            | none => collectNestedGitProjects p p.path) ≠ []) :
    (drillDown s p).navStack.length = s.navStack.length + 1 ∧
    (goBack (drillDown s p)).scrollOffset = s.scrollOffset ∧
    (goBack (drillDown s p)).selectedKey = s.selectedKey ∧
    (goBack (drillDown s p)).navStack.length = s.navStack.length ∧
    (∀ s2 : AppNavState, s2.navStack.length = 1 → goBack s2 = s2) := by
  have hlast : ∀ s2 : AppNavState, s2.navStack.length = 1 → goBack s2 = s2 := by
    intro s2 h1
    rw [goBack, if_neg (by omega)]
  have hn : 0 < s.navStack.length := List.length_pos.mpr hstack
  have hA : s.navStack.dropLast.length = s.navStack.length - 1 := s.navStack.length_dropLast
  set t : NavLevel :=
    { (s.navStack.getLast?).getD ⟨[], none, 0, none⟩ with
      savedScrollOffset := s.scrollOffset, savedSelectedKey := s.selectedKey } with ht
  have hdrill : ∀ nested : List Project, nested ≠ [] →
      ∀ cache' : List (String × List Project),
      (AppNavState.mk ((s.navStack.dropLast ++ [t]) ++ [⟨nested, some p.path, 0, none⟩])
        0 none "" cache').navStack.length = s.navStack.length + 1 ∧
      (goBack (AppNavState.mk ((s.navStack.dropLast ++ [t]) ++ [⟨nested, some p.path, 0, none⟩])
        0 none "" cache')).scrollOffset = s.scrollOffset ∧
      (goBack (AppNavState.mk ((s.navStack.dropLast ++ [t]) ++ [⟨nested, some p.path, 0, none⟩])
        0 none "" cache')).selectedKey = s.selectedKey ∧
      (goBack (AppNavState.mk ((s.navStack.dropLast ++ [t]) ++ [⟨nested, some p.path, 0, none⟩])
        0 none "" cache')).navStack.length = s.navStack.length := by
    intro nested hnested cache'
    have hshape : (s.navStack.dropLast ++ [t]) ++ [(⟨nested, some p.path, 0, none⟩ : NavLevel)] =
        s.navStack.dropLast ++ [t, ⟨nested, some p.path, 0, none⟩] := by
      rw [List.append_assoc]; rfl
    have hlen : ((s.navStack.dropLast ++ [t]) ++
        [(⟨nested, some p.path, 0, none⟩ : NavLevel)]).length = s.navStack.length + 1 := by
      simp [List.length_append, hA]; omega
    refine ⟨hlen, ?_⟩
    rw [goBack]
    rw [if_pos (by simp only [hlen]; omega)]
    have hidx : ((s.navStack.dropLast ++ [t]) ++
        [(⟨nested, some p.path, 0, none⟩ : NavLevel)])[((s.navStack.dropLast ++ [t]) ++
          [(⟨nested, some p.path, 0, none⟩ : NavLevel)]).length - 2]? = some t := by
      rw [hlen, hshape]
      have h2 : s.navStack.length + 1 - 2 = s.navStack.dropLast.length := by omega
      rw [h2, List.getElem?_append_right (Nat.le_refl _)]
      simp
    rw [hidx]
    refine ⟨rfl, rfl, ?_⟩
    simp only [AppNavState.mk.injEq]
    simp [List.length_dropLast, hlen]
    omega
  rw [drillDown, if_pos hflag]
  cases hc : cacheGet s.nestedCache p.path with
  | some l =>
    simp only [hc] at hne ⊢
    rw [if_neg (by simpa using hne)]
    exact ⟨(hdrill l hne _).1, (hdrill l hne _).2.1, (hdrill l hne _).2.2.1,
      (hdrill l hne _).2.2.2, hlast⟩
  | none =>
    simp only [hc] at hne ⊢
    rw [if_neg (by simpa using hne)]
    exact ⟨(hdrill _ hne _).1, (hdrill _ hne _).2.1, (hdrill _ hne _).2.2.1,
      (hdrill _ hne _).2.2.2, hlast⟩

/-- Witness for claim C7 at a concrete state with one root frame and a
drillable node. -/
theorem drillDown_goBack_witness :
    (goBack (drillDown
      ⟨[⟨[Project.mk "b" "/R/b" false true (some [Project.mk "g" "/R/b/g" true false none])],
         none, 0, none⟩], 7, some "/R/b", "", []⟩
      (Project.mk "b" "/R/b" false true
        (some [Project.mk "g" "/R/b/g" true false none])))).scrollOffset = 7 := by
  have h := drillDown_goBack
    ⟨[⟨[Project.mk "b" "/R/b" false true (some [Project.mk "g" "/R/b/g" true false none])],
       none, 0, none⟩], 7, some "/R/b", "", []⟩
    (Project.mk "b" "/R/b" false true (some [Project.mk "g" "/R/b/g" true false none]))
    (by simp) rfl (by simp [cacheGet, collectNestedGitProjects, Project.nestedProjects,
      collectTraverseList, collectTraverse])
  exact h.2.1

/-- The first index kept by the sentinel-and-filter computation of
`selectableIndices` is the index of the first item satisfying the
predicate. -/
theorem enumFrom_filterMap_head (p : ListItem → Bool) :
    ∀ (l : List ListItem) (i : Nat),
      ((List.enumFrom i l).filterMap fun x => if p x.2 then some x.1 else none).head? =
        l.findIdx? p i
  | [], _ => rfl
  | a :: l, i => by
      simp only [List.enumFrom, List.filterMap_cons, List.findIdx?_cons]
      cases hp : p a with
      | true => simp
      | false => simpa using enumFrom_filterMap_head p l (i + 1)

/-- The head of `selectableIndices` is the index of the first non-header
item. -/
theorem selectableIndices_head (items : List ListItem) :
    (selectableIndices items).head? = items.findIdx? fun it => !(it.type == ItemType.header) := by
  have h := enumFrom_filterMap_head (fun it => !(it.type == ItemType.header)) items 0
  simpa [selectableIndices, List.enum] using h

/--
Claim C9: the derivation of the selected index returns the mapped index
when the selection key exists in the key-to-index map, otherwise the index
of the first non-header item, otherwise zero.  The source represents an
absent key by any falsy value, so the mapped-index case assumes a nonempty
key, which every key built by the list builder is.
-/
theorem resolveSelectedIndex_spec (key : Option String) (m : List (String × Nat))
    (items : List ListItem) :
    (∀ k i, key = some k → k ≠ "" → mapLookup m k = some i →
      resolveSelectedIndex key m items = i) ∧
    ((key = none ∨ ∃ k, key = some k ∧ k ≠ "" ∧ mapLookup m k = none) →
      resolveSelectedIndex key m items =
        (items.findIdx? fun it => !(it.type == ItemType.header)).getD 0) ∧
    ((∀ it ∈ items, it.type = ItemType.header) → key = none →
      resolveSelectedIndex key m items = 0) := by
  have hfall : (selectableIndices items).headD 0 =
      (items.findIdx? fun it => !(it.type == ItemType.header)).getD 0 := by
    rw [List.headD_eq_head?_getD, selectableIndices_head]
  refine ⟨?_, ?_, ?_⟩
  · rintro k i rfl hk hm
    simp only [resolveSelectedIndex, if_neg hk, hm]
  · rintro (rfl | ⟨k, rfl, hk, hm⟩)
    · simpa [resolveSelectedIndex] using hfall
    · simp only [resolveSelectedIndex, if_neg hk, hm]
      exact hfall
  · rintro hall rfl
    simp only [resolveSelectedIndex]
    rw [hfall]
    have : (items.findIdx? fun it => !(it.type == ItemType.header)) = none := by
      rw [List.findIdx?_eq_none_iff]
      intro it hit
      simp [hall it hit]
    rw [this]
    rfl

/-- Witness for claim C9 at a concrete map and list: a mapped key resolves
to its index, an unmapped key to the first non-header index. -/
theorem resolveSelectedIndex_spec_witness :
    resolveSelectedIndex (some "/R/b") [("/R/a", 1), ("/R/b", 2)]
      [⟨ItemType.header, "All Projects", none, none, none, false, false, none, none⟩,
       ⟨ItemType.project, "a", some "/R/a", some "/R/a", none, false, false, none, none⟩,
       ⟨ItemType.project, "b", some "/R/b", some "/R/b", none, false, false, none, none⟩] = 2 ∧
    resolveSelectedIndex (some "gone") [("/R/a", 1), ("/R/b", 2)]
      [⟨ItemType.header, "All Projects", none, none, none, false, false, none, none⟩,
       ⟨ItemType.project, "a", some "/R/a", some "/R/a", none, false, false, none, none⟩] = 1 := by
  constructor
  · exact (resolveSelectedIndex_spec (some "/R/b") [("/R/a", 1), ("/R/b", 2)] _).1
      "/R/b" 2 rfl (by simp) (by rfl)
  · rw [(resolveSelectedIndex_spec (some "gone") [("/R/a", 1), ("/R/b", 2)] _).2.1
      (Or.inr ⟨"gone", rfl, by simp, by rfl⟩)]
    rfl

/-- A header at the front empties the lookahead section. -/
theorem sectionEntries_cons_header (it : ListItem) (l : List ListItem)
    (h : it.type = ItemType.header) : sectionEntries (it :: l) = [] := by
  simp [sectionEntries, List.takeWhile_cons, h]

/-- An entry at the front joins the lookahead section. -/
theorem sectionEntries_cons_project (it : ListItem) (l : List ListItem)
    (h : it.type = ItemType.project) : sectionEntries (it :: l) = it :: sectionEntries l := by
  simp [sectionEntries, List.takeWhile_cons, h]

/-- A Back item at the front is skipped by the lookahead section. -/
theorem sectionEntries_cons_back (it : ListItem) (l : List ListItem)
    (h : it.type = ItemType.back) : sectionEntries (it :: l) = sectionEntries l := by
  simp [sectionEntries, List.takeWhile_cons, h]

/-- Unfolding of the specification filter at a header. -/
theorem specFilter_cons_header (low : String) (it : ListItem) (l : List ListItem)
    (h : it.type = ItemType.header) :
    specFilter low (it :: l) =
      if (sectionEntries l).any (itemMatches low) then it :: specFilter low l
      else specFilter low l := by
  rcases it with ⟨ty, lb, pa, sk, pr, isc, irc, tg, sid⟩
  cases h
  rfl

/-- Unfolding of the specification filter at an entry. -/
theorem specFilter_cons_project (low : String) (it : ListItem) (l : List ListItem)
    (h : it.type = ItemType.project) :
    specFilter low (it :: l) =
      if itemMatches low it then it :: specFilter low l else specFilter low l := by
  rcases it with ⟨ty, lb, pa, sk, pr, isc, irc, tg, sid⟩
  cases h
  rfl

/-- Unfolding of the specification filter at a Back item. -/
theorem specFilter_cons_back (low : String) (it : ListItem) (l : List ListItem)
    (h : it.type = ItemType.back) :
    specFilter low (it :: l) = specFilter low l := by
  rcases it with ⟨ty, lb, pa, sk, pr, isc, irc, tg, sid⟩
  cases h
  rfl

/-- A pending header contributes nothing ahead of a header. -/
theorem specFilter_pending_header (low : String) (acc : FilterAcc)
    (hch : ∀ h, acc.currentHeader = some h → h.type = ItemType.header)
    (it : ListItem) (l : List ListItem) (h : it.type = ItemType.header) :
    specFilter low (pendingList acc ++ (it :: l)) = specFilter low (it :: l) := by
  rcases acc with ⟨fil, km, ch, ha, bi⟩
  cases ch with
  | none => cases ha <;> rfl
  | some hd =>
    cases ha with
    | true => rfl
    | false =>
      have hhd : hd.type = ItemType.header := hch hd rfl
      show specFilter low (hd :: it :: l) = specFilter low (it :: l)
      rw [specFilter_cons_header low hd _ hhd, sectionEntries_cons_header it l h]
      simp

/-- A pending header passes unchanged over a skipped item (a Back item or a
non-matching entry). -/
theorem specFilter_pending_skip (low : String) (acc : FilterAcc)
    (hch : ∀ h, acc.currentHeader = some h → h.type = ItemType.header)
    (it : ListItem) (l : List ListItem)
    (hskip : it.type = ItemType.back ∨
      (it.type = ItemType.project ∧ itemMatches low it = false)) :
    specFilter low (pendingList acc ++ (it :: l)) = specFilter low (pendingList acc ++ l) := by
  have hsec : ∀ m : List ListItem, (sectionEntries (it :: m)).any (itemMatches low) =
      (sectionEntries m).any (itemMatches low) := by
    intro m
    rcases hskip with h | ⟨h, hm⟩
    · rw [sectionEntries_cons_back it m h]
    · rw [sectionEntries_cons_project it m h]
      simp [hm]
  have hdrop : ∀ m : List ListItem, specFilter low (it :: m) = specFilter low m := by
    intro m
    rcases hskip with h | ⟨h, hm⟩
    · exact specFilter_cons_back low it m h
    · rw [specFilter_cons_project low it m h, hm]
      simp
  rcases acc with ⟨fil, km, ch, ha, bi⟩
  cases ch with
  | none => cases ha <;> exact hdrop l
  | some hd =>
    cases ha with
    | true => exact hdrop l
    | false =>
      have hhd : hd.type = ItemType.header := hch hd rfl
      show specFilter low (hd :: it :: l) = specFilter low (hd :: l)
      rw [specFilter_cons_header low hd _ hhd, specFilter_cons_header low hd _ hhd,
        hsec l, hdrop l]

/-- Effect of the loop body on a header: it becomes the remembered section
header, not yet emitted. -/
theorem filterStep_header (low : String) (acc : FilterAcc) (it : ListItem)
    (h : it.type = ItemType.header) :
    filterStep low acc it = { acc with currentHeader := some it, headerAdded := false } := by
  rcases it with ⟨ty, lb, pa, sk, pr, isc, irc, tg, sid⟩
  cases h
  rfl

/-- Effect of the loop body on a Back item: it is set aside for the end. -/
theorem filterStep_back (low : String) (acc : FilterAcc) (it : ListItem)
    (h : it.type = ItemType.back) :
    filterStep low acc it = { acc with backItem := some it } := by
  rcases it with ⟨ty, lb, pa, sk, pr, isc, irc, tg, sid⟩
  cases h
  rfl

/-- Effect of the loop body on a non-matching entry: nothing changes. -/
theorem filterStep_project_false (low : String) (acc : FilterAcc) (it : ListItem)
    (h : it.type = ItemType.project) (hm : itemMatches low it = false) :
    filterStep low acc it = acc := by
  rcases it with ⟨ty, lb, pa, sk, pr, isc, irc, tg, sid⟩
  cases h
  simp [filterStep, hm]

/-- Effect of the loop body on a matching entry: the owed header and the
entry are appended, after which no header is owed; the remembered section
header and Back item are untouched. -/
theorem filterStep_project_true (low : String) (acc : FilterAcc) (it : ListItem)
    (hty : it.type = ItemType.project) (hm : itemMatches low it = true) :
    (filterStep low acc it).filtered = acc.filtered ++ pendingList acc ++ [it] ∧
    pendingList (filterStep low acc it) = [] ∧
    (filterStep low acc it).currentHeader = acc.currentHeader ∧
    (filterStep low acc it).backItem = acc.backItem := by
  rcases it with ⟨ty, lb, pa, sk, pr, isc, irc, tg, sid⟩
  cases hty
  rcases acc with ⟨fil, km, ch, ha, bi⟩
  rcases ch with _ | hd <;> cases ha <;> rcases sk with _ | k <;>
    simp [filterStep, hm, pendingList]

/-- A matching entry pulls the owed header and itself to the front of the
specification filter. -/
theorem specFilter_pending_match (low : String) (acc : FilterAcc)
    (hch : ∀ h, acc.currentHeader = some h → h.type = ItemType.header)
    (it : ListItem) (l : List ListItem)
    (hty : it.type = ItemType.project) (hm : itemMatches low it = true) :
    specFilter low (pendingList acc ++ (it :: l)) =
      pendingList acc ++ (it :: specFilter low l) := by
  have hsingle : specFilter low (it :: l) = it :: specFilter low l := by
    rw [specFilter_cons_project low it l hty, hm]
    simp
  rcases acc with ⟨fil, km, ch, ha, bi⟩
  cases ch with
  | none => cases ha <;> exact hsingle
  | some hd =>
    cases ha with
    | true => exact hsingle
    | false =>
      have hhd : hd.type = ItemType.header := hch hd rfl
      show specFilter low (hd :: it :: l) = hd :: it :: specFilter low l
      rw [specFilter_cons_header low hd _ hhd, sectionEntries_cons_project it l hty]
      have hcond : ((it :: sectionEntries l).any (itemMatches low)) = true := by
        simp [hm]
      rw [hcond, if_pos rfl, hsingle]

/--
Loop invariant of the filter memo: folding the loop body over the remaining
items appends to the output exactly the specification filter of the
remaining items, preceded by the still-owed section header.
-/
theorem filterStep_foldl_filtered (low : String) :
    ∀ (l : List ListItem) (acc : FilterAcc),
      (∀ h, acc.currentHeader = some h → h.type = ItemType.header) →
      (l.foldl (filterStep low) acc).filtered =
        acc.filtered ++ specFilter low (pendingList acc ++ l) := by
  intro l
  induction l with
  | nil =>
    intro acc hch
    rcases acc with ⟨fil, km, ch, ha, bi⟩
    cases ch with
    | none => cases ha <;> simp [pendingList, specFilter]
    | some hd =>
      cases ha with
      | true => simp [pendingList, specFilter]
      | false =>
        have hhd : hd.type = ItemType.header := hch hd rfl
        simp only [List.foldl_nil, pendingList, List.append_nil]
        rw [show ([hd] : List ListItem) = hd :: [] from rfl,
          specFilter_cons_header low hd [] hhd]
        simp [sectionEntries, specFilter]
  | cons it rest ih =>
    intro acc hch
    cases hty : it.type with
    | header =>
      rw [List.foldl_cons, filterStep_header low acc it hty,
        ih _ (by
          intro h hh
          have h2 : some it = some h := hh
          injection h2 with h3
          exact h3 ▸ hty)]
      rw [show pendingList { acc with currentHeader := some it, headerAdded := false } =
        [it] from rfl]
      rw [specFilter_pending_header low acc hch it rest hty]
      rfl
    | back =>
      rw [List.foldl_cons, filterStep_back low acc it hty,
        ih _ (by intro h hh; exact hch h hh)]
      rw [show pendingList { acc with backItem := some it } = pendingList acc from rfl]
      rw [specFilter_pending_skip low acc hch it rest (Or.inl hty)]
    | project =>
      cases hm : itemMatches low it with
      | false =>
        rw [List.foldl_cons, filterStep_project_false low acc it hty hm, ih _ hch,
          specFilter_pending_skip low acc hch it rest (Or.inr ⟨hty, hm⟩)]
      | true =>
        have hstep := filterStep_project_true low acc it hty hm
        rw [List.foldl_cons, ih _ (by
          intro h hh
          rw [hstep.2.2.1] at hh
          exact hch h hh)]
        rw [hstep.2.1, hstep.1, specFilter_pending_match low acc hch it rest hty hm]
        simp [List.append_assoc]

/-- The last Back item ignores a non-Back item at the front. -/
theorem lastBack_cons_nonback (it : ListItem) (l : List ListItem)
    (h : (it.type == ItemType.back) = false) :
    lastBack (it :: l) = lastBack l := by
  simp [lastBack, List.filter_cons, h]

/-- The last Back item of a list starting with a Back item. -/
theorem lastBack_cons_back (it : ListItem) (l : List ListItem)
    (h : (it.type == ItemType.back) = true) :
    lastBack (it :: l) =
      match lastBack l with
      | some b => some b
      | none => some it := by
  simp only [lastBack, List.filter_cons, h, if_pos]
  cases hb : (l.filter fun x => x.type == ItemType.back) with
  | nil => rfl
  | cons x xs => rw [List.getLast?_cons_cons]; cases hx : (x :: xs).getLast? with
    | none => simp at hx
    | some b => rfl

/-- Loop invariant for the Back slot: after the fold it holds the last Back
item of the processed list, or the initial value when there is none. -/
theorem filterStep_foldl_back (low : String) :
    ∀ (l : List ListItem) (acc : FilterAcc),
      (l.foldl (filterStep low) acc).backItem =
        match lastBack l with
        | some b => some b
        | none => acc.backItem := by
  intro l
  induction l with
  | nil => intro acc; rfl
  | cons it rest ih =>
    intro acc
    cases hty : it.type with
    | header =>
      rw [List.foldl_cons, filterStep_header low acc it hty, ih,
        lastBack_cons_nonback it rest (by rw [hty]; rfl)]
    | back =>
      rw [List.foldl_cons, filterStep_back low acc it hty, ih,
        lastBack_cons_back it rest (by rw [hty]; rfl)]
      cases lastBack rest <;> rfl
    | project =>
      cases hm : itemMatches low it with
      | false =>
        rw [List.foldl_cons, filterStep_project_false low acc it hty hm, ih,
          lastBack_cons_nonback it rest (by rw [hty]; rfl)]
      | true =>
        have hstep := filterStep_project_true low acc it hty hm
        rw [List.foldl_cons, ih, hstep.2.2.2,
          lastBack_cons_nonback it rest (by rw [hty]; rfl)]

/-- The specification filter keeps exactly the matching entries, in their
original order. -/
theorem specFilter_filter_project (low : String) :
    ∀ l : List ListItem,
      ((specFilter low l).filter fun it => it.type == ItemType.project) =
        ((l.filter fun it => it.type == ItemType.project).filter (itemMatches low)) := by
  intro l
  induction l with
  | nil => rfl
  | cons it rest ih =>
    cases hty : it.type with
    | header =>
      rw [specFilter_cons_header low it rest hty]
      have hf : (it.type == ItemType.project) = false := by rw [hty]; rfl
      by_cases hc : ((sectionEntries rest).any (itemMatches low)) = true
      · rw [if_pos hc]
        simp only [List.filter_cons, hf]
        exact ih
      · rw [if_neg hc]
        simp only [List.filter_cons, hf]
        exact ih
    | back =>
      rw [specFilter_cons_back low it rest hty]
      have hf : (it.type == ItemType.project) = false := by rw [hty]; rfl
      simp only [List.filter_cons, hf]
      exact ih
    | project =>
      rw [specFilter_cons_project low it rest hty]
      have hf : (it.type == ItemType.project) = true := by rw [hty]; rfl
      cases hm : itemMatches low it with
      | false =>
        rw [if_neg (by simp [hm])]
        simp only [List.filter_cons, hf, if_pos, hm]
        simpa using ih
      | true =>
        rw [if_pos rfl]
        have hcons := congrArg (fun x => it :: x) ih
        simpa [List.filter_cons, hf, hm, List.filter_filter] using hcons

/-- The specification filter is a subsequence of the entries and headers of
the input. -/
theorem specFilter_sublist (low : String) :
    ∀ l : List ListItem,
      (specFilter low l).Sublist (l.filter fun it => !(it.type == ItemType.back)) := by
  intro l
  induction l with
  | nil => exact List.Sublist.refl _
  | cons it rest ih =>
    cases hty : it.type with
    | header =>
      rw [specFilter_cons_header low it rest hty]
      have hf : (!(it.type == ItemType.back)) = true := by rw [hty]; rfl
      have hfil : ((it :: rest).filter fun x => !(x.type == ItemType.back)) =
          it :: (rest.filter fun x => !(x.type == ItemType.back)) := by
        simp [List.filter_cons, hf]
      rw [hfil]
      by_cases hc : ((sectionEntries rest).any (itemMatches low)) = true
      · rw [if_pos hc]; exact ih.cons₂ it
      · rw [if_neg hc]; exact ih.cons it
    | back =>
      rw [specFilter_cons_back low it rest hty]
      have hf : (!(it.type == ItemType.back)) = false := by rw [hty]; rfl
      have hfil : ((it :: rest).filter fun x => !(x.type == ItemType.back)) =
          rest.filter fun x => !(x.type == ItemType.back) := by
        simp [List.filter_cons, hf]
      rw [hfil]
      exact ih
    | project =>
      rw [specFilter_cons_project low it rest hty]
      have hf : (!(it.type == ItemType.back)) = true := by rw [hty]; rfl
      have hfil : ((it :: rest).filter fun x => !(x.type == ItemType.back)) =
          it :: (rest.filter fun x => !(x.type == ItemType.back)) := by
        simp [List.filter_cons, hf]
      rw [hfil]
      cases hm : itemMatches low it with
      | false => rw [if_neg (by simp)]; exact ih.cons it
      | true => rw [if_pos rfl]; exact ih.cons₂ it

/-- A surviving last Back item is a Back item. -/
theorem lastBack_type (l : List ListItem) (b : ListItem) (h : lastBack l = some b) :
    b.type = ItemType.back := by
  have hmem := List.mem_of_getLast?_eq_some h
  have := List.mem_filter.mp hmem
  simpa using this.2

/-- The empty search term matches every item. -/
theorem itemMatches_empty (it : ListItem) : itemMatches (strToLower "") it = true := by
  show listIncludes (strToLower it.label).data [] = true
  cases hd : (strToLower it.label).data with
  | nil => simp [listIncludes]
  | cons c cs => simp [listIncludes, List.isPrefixOf]

/--
Claim C6: filtering with the empty search term is the identity on the list
and the key map; for any term the filtered list is exactly the
specification-side filter (matching entries kept in order, a header kept
exactly when an entry beneath it survives, the Back item moved to the end);
the entries of the result are exactly the case-insensitively matching
entries of the input in order; and for a nonempty term the result is a
subsequence of the input without its Back item, followed by that Back item.
-/
theorem filterItems_spec (t : String) (l : List ListItem) (m : List (String × Nat)) :
    filterItems "" l m = (l, m) ∧
    (filterItems t l m).1 = specFilterItems t l ∧
    ((filterItems t l m).1.filter fun it => it.type == ItemType.project) =
      ((l.filter fun it => it.type == ItemType.project).filter (itemMatches (strToLower t))) ∧
    (t ≠ "" → ((filterItems t l m).1.Sublist
      ((l.filter fun it => !(it.type == ItemType.back)) ++ (lastBack l).toList))) := by
  have hid : filterItems "" l m = (l, m) := by rw [filterItems, if_pos rfl]
  by_cases ht : t = ""
  · subst ht
    refine ⟨hid, ?_, ?_, ?_⟩
    · rw [hid, specFilterItems, if_pos rfl]
    · rw [hid]
      have hall : ∀ it ∈ (l.filter fun it => it.type == ItemType.project),
          itemMatches (strToLower "") it = true := fun it _ => itemMatches_empty it
      rw [List.filter_eq_self.mpr hall]
    · intro hne; exact absurd rfl hne
  · have hfold := filterStep_foldl_filtered (strToLower t) l ⟨[], [], none, false, none⟩
      (by intro h hh; exact absurd hh (by simp))
    have hback := filterStep_foldl_back (strToLower t) l ⟨[], [], none, false, none⟩
    have hone : (filterItems t l m).1 =
        specFilter (strToLower t) l ++ (lastBack l).toList := by
      have hdef : filterItems t l m =
          (match (l.foldl (filterStep (strToLower t)) ⟨[], [], none, false, none⟩).backItem with
           | none =>
             ((l.foldl (filterStep (strToLower t)) ⟨[], [], none, false, none⟩).filtered,
              (l.foldl (filterStep (strToLower t)) ⟨[], [], none, false, none⟩).keyMap)
           | some b =>
             ((l.foldl (filterStep (strToLower t)) ⟨[], [], none, false, none⟩).filtered ++ [b],
              mapSet (l.foldl (filterStep (strToLower t)) ⟨[], [], none, false, none⟩).keyMap
                "__back__"
                (l.foldl (filterStep (strToLower t))
                  ⟨[], [], none, false, none⟩).filtered.length)) := by
        rw [filterItems, if_neg ht]
      rw [hdef, hback]
      cases hb : lastBack l with
      | none =>
        simp only [Option.toList]
        rw [hfold]
        simp [pendingList]
      | some b =>
        simp only [Option.toList]
        rw [hfold]
        simp [pendingList]
    have hspec : specFilterItems t l = specFilter (strToLower t) l ++ (lastBack l).toList := by
      rw [specFilterItems, if_neg ht]
    refine ⟨hid, by rw [hone, hspec], ?_, ?_⟩
    · rw [hone, List.filter_append]
      have hb2 : ((lastBack l).toList.filter fun it => it.type == ItemType.project) = [] := by
        cases hb : lastBack l with
        | none => rfl
        | some b =>
          have := lastBack_type l b hb
          simp [Option.toList, List.filter_cons, this]
      rw [hb2, List.append_nil, specFilter_filter_project]
    · intro _
      rw [hone]
      exact (specFilter_sublist (strToLower t) l).append (List.Sublist.refl _)

/-- Witness for claim C6 on the concrete scenario of the specification:
searching `ga` keeps `gamma` and its header and drops the siblings; the
order-preservation conjunct is instantiated as well. -/
theorem filterItems_spec_witness :
    (filterItems "ga"
      [⟨ItemType.header, "All Projects", none, none, none, false, false, none, none⟩,
       ⟨ItemType.project, "alpha", none, some "/R/alpha", none, false, false, none, none⟩,
       ⟨ItemType.project, "gamma", none, some "/R/g", none, false, false, none, none⟩,
       ⟨ItemType.project, "beta", none, some "/R/beta", none, false, false, none, none⟩]
      []).1 =
      [⟨ItemType.header, "All Projects", none, none, none, false, false, none, none⟩,
       ⟨ItemType.project, "gamma", none, some "/R/g", none, false, false, none, none⟩] ∧
    (filterItems "ga"
      [⟨ItemType.header, "All Projects", none, none, none, false, false, none, none⟩,
       ⟨ItemType.project, "alpha", none, some "/R/alpha", none, false, false, none, none⟩,
       ⟨ItemType.project, "gamma", none, some "/R/g", none, false, false, none, none⟩,
       ⟨ItemType.project, "beta", none, some "/R/beta", none, false, false, none, none⟩]
      []).1.Sublist
      ([⟨ItemType.header, "All Projects", none, none, none, false, false, none, none⟩,
        ⟨ItemType.project, "alpha", none, some "/R/alpha", none, false, false, none, none⟩,
        ⟨ItemType.project, "gamma", none, some "/R/g", none, false, false, none, none⟩,
        ⟨ItemType.project, "beta", none, some "/R/beta", none, false, false, none,
          none⟩].filter fun it => !(it.type == ItemType.back)) := by
  constructor
  · rfl
  · have h := (filterItems_spec "ga"
      [⟨ItemType.header, "All Projects", none, none, none, false, false, none, none⟩,
       ⟨ItemType.project, "alpha", none, some "/R/alpha", none, false, false, none, none⟩,
       ⟨ItemType.project, "gamma", none, some "/R/g", none, false, false, none, none⟩,
       ⟨ItemType.project, "beta", none, some "/R/beta", none, false, false, none, none⟩]
      []).2.2.2 (by simp)
    simpa using h

/-- Exact shortcut matches are exactly the shortcuts whose whole stored
command is one quoted change-directory instruction. -/
theorem mem_exactShortcutPaths (shortcuts : List ShortcutEntry) (pth : String) :
    pth ∈ exactShortcutPaths shortcuts ↔
      ∃ sc ∈ shortcuts, ∃ cmd, sc.command = [cmd] ∧ parseExactCd cmd = some pth := by
  rw [exactShortcutPaths, List.mem_filterMap]
  constructor
  · rintro ⟨sc, hsc, hf⟩
    rcases hcmd : sc.command with _ | ⟨cmd, rest⟩
    · rw [hcmd] at hf; exact absurd hf (by simp)
    · rcases rest with _ | ⟨c2, r2⟩
      · rw [hcmd] at hf
        exact ⟨sc, hsc, cmd, hcmd, hf⟩
      · rw [hcmd] at hf; exact absurd hf (by simp)
  · rintro ⟨sc, hsc, cmd, hcmd, hp⟩
    refine ⟨sc, hsc, ?_⟩
    rw [hcmd]
    exact hp

/--
Claim C5: at the root, the built list contains the Recent section between
the Shortcuts section and the current-level section, and that section keeps
exactly the recent entries whose path has no exact shortcut match; an exact
match means a shortcut whose whole stored command is a single quoted
change-directory instruction, so a path appearing only inside a multi-step
shortcut command never hides a recent entry.
-/
theorem recentSection_spec (shortcuts : List ShortcutEntry) (recents : List HistoryEntry)
    (projects : Option (List Project)) (currentProjects : List Project)
    (projectsDir : String) (showShortcuts : Bool) :
    (buildUnfilteredItems true showShortcuts true "" shortcuts recents projects
        currentProjects none projectsDir =
      (if showShortcuts && !shortcuts.isEmpty then
          { type := ItemType.header, label := "Shortcuts" } ::
            shortcuts.map (shortcutItem projects)
        else []) ++
      recentSection shortcuts recents projects ++
      ({ type := ItemType.header, label := "All Projects" } ::
        currentProjects.map (mainItem shortcuts (recents.map HistoryEntry.path)))) ∧
    (∀ e ∈ recents,
      ((∃ it ∈ recentSection shortcuts recents projects,
          it.path = some e.path ∧ it.isRecent = true) ↔
        e.path ∉ exactShortcutPaths shortcuts)) ∧
    (∀ pth, pth ∈ exactShortcutPaths shortcuts ↔
      ∃ sc ∈ shortcuts, ∃ cmd, sc.command = [cmd] ∧ parseExactCd cmd = some pth) ∧
    (∀ e ∈ recents, (∀ sc ∈ shortcuts, sc.command.length ≠ 1) →
      ∃ it ∈ recentSection shortcuts recents projects,
        it.path = some e.path ∧ it.isRecent = true) := by
  have hkept : ∀ x, x ∈ ((recents.filter fun e =>
      !((exactShortcutPaths shortcuts).contains e.path)).map (recentItem projects)) ↔
      ∃ e ∈ recents, e.path ∉ exactShortcutPaths shortcuts ∧ x = recentItem projects e := by
    intro x
    simp only [List.mem_map, List.mem_filter]
    constructor
    · rintro ⟨e, ⟨he, hc⟩, rfl⟩
      exact ⟨e, he, by simpa using hc, rfl⟩
    · rintro ⟨e, he, hc, rfl⟩
      exact ⟨e, ⟨he, by simpa using hc⟩, rfl⟩
  have hsec : ∀ x xs, ((recents.filter fun e =>
      !((exactShortcutPaths shortcuts).contains e.path)).map (recentItem projects)) = x :: xs →
      recentSection shortcuts recents projects =
        { type := ItemType.header, label := "Recent" } :: x :: xs := by
    intro x xs hk
    rw [recentSection, hk]
  have hsecnil : ((recents.filter fun e =>
      !((exactShortcutPaths shortcuts).contains e.path)).map (recentItem projects)) = [] →
      recentSection shortcuts recents projects = [] := by
    intro hk
    rw [recentSection, hk]
  have hmem : ∀ e ∈ recents,
      ((∃ it ∈ recentSection shortcuts recents projects,
          it.path = some e.path ∧ it.isRecent = true) ↔
        e.path ∉ exactShortcutPaths shortcuts) := by
    intro e he
    constructor
    · intro ⟨it, hit, hpath, _⟩
      rcases hk : ((recents.filter fun e =>
          !((exactShortcutPaths shortcuts).contains e.path)).map (recentItem projects)) with
        _ | ⟨x, xs⟩
      · rw [hsecnil hk] at hit; exact absurd hit (by simp)
      · rw [hsec x xs hk] at hit
        rcases List.mem_cons.mp hit with rfl | hit2
        · exact absurd hpath (by simp)
        · have hx : it ∈ ((recents.filter fun e =>
              !((exactShortcutPaths shortcuts).contains e.path)).map (recentItem projects)) := by
            rw [hk]; exact hit2
          rcases (hkept it).mp hx with ⟨e2, _, hne, rfl⟩
          have : e2.path = e.path := by simpa [recentItem] using hpath
          rw [← this]
          exact hne
    · intro hne
      have hx : recentItem projects e ∈ ((recents.filter fun e =>
          !((exactShortcutPaths shortcuts).contains e.path)).map (recentItem projects)) :=
        (hkept _).mpr ⟨e, he, hne, rfl⟩
      rcases hk : ((recents.filter fun e =>
          !((exactShortcutPaths shortcuts).contains e.path)).map (recentItem projects)) with
        _ | ⟨x, xs⟩
      · rw [hk] at hx; exact absurd hx (by simp)
      · rw [hk] at hx
        refine ⟨recentItem projects e, ?_, rfl, rfl⟩
        rw [hsec x xs hk]
        exact List.mem_cons_of_mem _ hx
  refine ⟨?_, hmem, fun pth => mem_exactShortcutPaths shortcuts pth, ?_⟩
  · rw [buildUnfilteredItems]
    have h1 : (true && showShortcuts && !shortcuts.isEmpty && ("" : String) = "") =
        (showShortcuts && !shortcuts.isEmpty) := by
      cases showShortcuts <;> cases shortcuts <;> simp
    rw [h1]
    have h2 : (true && true && !recents.isEmpty && ("" : String) = "") = !recents.isEmpty := by
      cases recents <;> simp
    rw [h2]
    cases hre : recents with
    | nil =>
      have : recentSection shortcuts [] projects = [] := rfl
      simp [this, recentSection]
    | cons e es => simp
  · intro e he hmulti
    refine (hmem e he).mpr ?_
    intro hmem2
    rcases (mem_exactShortcutPaths shortcuts e.path).mp hmem2 with ⟨sc, hsc, cmd, hcmd, _⟩
    exact hmulti sc hsc (by rw [hcmd]; rfl)

/-- Witness for claim C5: a recent path covered only by a two-step shortcut
command stays in the Recent section, while an exactly matched one is
hidden. -/
theorem recentSection_spec_witness :
    (∃ it ∈ recentSection
        [⟨"1", "multi", "m", false, ["cd \x22/a/b\x22", "npm start"]⟩]
        [⟨"/a/b", "b", 0⟩] none,
      it.path = some "/a/b" ∧ it.isRecent = true) ∧
    ¬(∃ it ∈ recentSection
        [⟨"1", "exact", "x", false, ["cd \x22/a/b\x22"]⟩]
        [⟨"/a/b", "b", 0⟩] none,
      it.path = some "/a/b" ∧ it.isRecent = true) := by
  constructor
  · exact (recentSection_spec [⟨"1", "multi", "m", false, ["cd \x22/a/b\x22", "npm start"]⟩]
      [⟨"/a/b", "b", 0⟩] none [] "/R" false).2.2.2 ⟨"/a/b", "b", 0⟩ (by simp)
      (by intro sc hsc; rcases List.mem_singleton.mp hsc with rfl; simp)
  · intro hcl
    have h := ((recentSection_spec [⟨"1", "exact", "x", false, ["cd \x22/a/b\x22"]⟩]
      [⟨"/a/b", "b", 0⟩] none [] "/R" false).2.1 ⟨"/a/b", "b", 0⟩ (by simp)).mp hcl
    apply h
    rw [mem_exactShortcutPaths]
    exact ⟨⟨"1", "exact", "x", false, ["cd \x22/a/b\x22"]⟩, by simp, "cd \x22/a/b\x22", rfl,
      by rfl⟩

mutual

/-- Induction principle for the nested `Project` tree: a property closed
under children holds everywhere. -/
theorem projInd (motive : Project → Prop)
    (h : ∀ n pa g hn nested, (∀ q ∈ (Option.getD nested []), motive q) →
      motive (.mk n pa g hn nested)) :
    ∀ p : Project, motive p
  | .mk n pa g hn none =>
    h n pa g hn none (fun q hq => absurd hq (List.not_mem_nil q))
  | .mk n pa g hn (some l) =>
    h n pa g hn (some l) (fun q hq => projIndList motive h l q hq)

/-- Induction principle for forests of the nested `Project` tree. -/
theorem projIndList (motive : Project → Prop)
    (h : ∀ n pa g hn nested, (∀ q ∈ (Option.getD nested []), motive q) →
      motive (.mk n pa g hn nested)) :
    ∀ l : List Project, ∀ q ∈ l, motive q
  | [] => fun q hq => absurd hq (List.not_mem_nil q)
  | p :: ps => fun q hq =>
      (List.mem_cons.mp hq).elim
        (fun he => he ▸ projInd motive h p)
        (fun hq2 => projIndList motive h ps q hq2)

end

/-- The forest flag invariant is membership of the node invariant. -/
theorem flagInvList_iff : ∀ l : List Project, flagInvList l ↔ ∀ p ∈ l, flagInv p := by
  intro l
  induction l with
  | nil => simp [flagInvList]
  | cons p ps ih => simp [flagInvList, ih]

/-- The forest well-formedness test is membership of the node test. -/
theorem treeOkList_iff : ∀ l : List Project,
    treeOkList l = true ↔ ∀ p ∈ l, treeOk p = true := by
  intro l
  induction l with
  | nil => simp [treeOkList]
  | cons p ps ih => simp [treeOkList, ih]

/-- The forest sortedness predicate is membership of the node predicate. -/
theorem sortedTreeListBy_iff (le : String → String → Bool) : ∀ l : List Project,
    sortedTreeListBy le l ↔ ∀ p ∈ l, sortedTreeBy le p := by
  intro l
  induction l with
  | nil => simp [sortedTreeListBy]
  | cons p ps ih => simp [sortedTreeListBy, ih]

/-- The sibling-name distinctness test is distinctness of the name list. -/
theorem namesNodupB_iff : ∀ l : List Project,
    namesNodupB l = true ↔ (l.map Project.name).Nodup := by
  intro l
  induction l with
  | nil => simp [namesNodupB]
  | cons p ps ih =>
    simp only [namesNodupB, List.map_cons, List.nodup_cons, Bool.and_eq_true, ih,
      Bool.not_eq_true']
    constructor
    · rintro ⟨ha, hb⟩
      refine ⟨?_, hb⟩
      intro hmem
      rcases List.mem_map.mp hmem with ⟨q, hq, hname⟩
      have : ps.any (fun q => q.name == p.name) = true :=
        List.any_eq_true.mpr ⟨q, hq, by simp [hname]⟩
      rw [this] at ha
      exact absurd ha (by simp)
    · rintro ⟨ha, hb⟩
      refine ⟨?_, hb⟩
      rw [List.any_eq_false]
      intro q hq
      show ¬(q.name == p.name) = true
      rw [beq_iff_eq]
      intro hname
      exact ha (List.mem_map.mpr ⟨q, hq, hname⟩)

/-- The recursive child sort maps the one-node sort over the list. -/
theorem sortEach_eq_map : ∀ l : List Project, sortEach l = l.map sortOne := by
  intro l
  induction l with
  | nil => rfl
  | cons p ps ih => simp [sortEach, ih]

/-- Sorting a subtree does not change the node name. -/
theorem sortOne_name (p : Project) : (sortOne p).name = p.name := by
  rcases p with ⟨n, pa, g, hn, _ | l⟩ <;> rfl

/-- The parametric recursive child sort maps the one-node sort over the
list. -/
theorem sortEachBy_eq_map (le : String → String → Bool) :
    ∀ l : List Project, sortEachBy le l = l.map (sortOneBy le) := by
  intro l
  induction l with
  | nil => rfl
  | cons p ps ih => simp [sortEachBy, ih]

/-- The parametric sort of a subtree does not change the node name. -/
theorem sortOneBy_name (le : String → String → Bool) (p : Project) :
    (sortOneBy le p).name = p.name := by
  rcases p with ⟨n, pa, g, hn, _ | l⟩ <;> rfl

/-- The invariant of claim C10 holds for every fresh chain of nodes. -/
theorem flagInv_newChain : ∀ (rest : List String) (path s : String),
    flagInv (newChain path s rest) := by
  intro rest
  induction rest with
  | nil => intro path s; exact rfl
  | cons r rs ih =>
    intro path s
    show (true = true ↔ [newChain (path ++ "/" ++ r) r rs] ≠ []) ∧
      flagInvList [newChain (path ++ "/" ++ r) r rs]
    exact ⟨by simp, ih _ _, trivial⟩

/-- Inserting a nonempty segment path never empties a forest. -/
theorem insertSegs_ne_nil (pp : String) (forest : List Project) (s : String)
    (rest : List String) : insertSegs pp forest (s :: rest) ≠ [] := by
  rw [insertSegs]
  cases hf : forest.findIdx? (fun n => n.name == s) with
  | none => simp
  | some i =>
    intro hcontra
    have := congrArg List.length hcontra
    simp only [List.length_set, List.length_nil] at this
    rcases forest with _ | ⟨x, xs⟩
    · simp at hf
    · simp at this

/-- A found index points at a member of the forest. -/
theorem findIdx?_getD_mem (forest : List Project) (pred : Project → Bool) (i : Nat)
    (d : Project) (hf : forest.findIdx? pred = some i) : forest.getD i d ∈ forest := by
  rcases List.findIdx?_eq_some_iff_getElem.mp hf with ⟨hi, _, _⟩
  rw [List.getD_eq_getElem?_getD, List.getElem?_eq_getElem hi]
  exact List.getElem_mem hi

/-- A found index points at a node satisfying the search predicate. -/
theorem findIdx?_getD_pred (forest : List Project) (pred : Project → Bool) (i : Nat)
    (d : Project) (hf : forest.findIdx? pred = some i) : pred (forest.getD i d) = true := by
  rcases List.findIdx?_eq_some_iff_getElem.mp hf with ⟨hi, hp, _⟩
  rw [List.getD_eq_getElem?_getD, List.getElem?_eq_getElem hi]
  exact hp

/-- Accessor equations on a constructed node. -/
theorem Project.name_mk (n pa : String) (g hn : Bool) (c : Option (List Project)) :
    (Project.mk n pa g hn c).name = n := rfl

theorem Project.path_mk (n pa : String) (g hn : Bool) (c : Option (List Project)) :
    (Project.mk n pa g hn c).path = pa := rfl

theorem Project.isGitRepo_mk (n pa : String) (g hn : Bool) (c : Option (List Project)) :
    (Project.mk n pa g hn c).isGitRepo = g := rfl

theorem Project.hasNestedProjects_mk (n pa : String) (g hn : Bool)
    (c : Option (List Project)) : (Project.mk n pa g hn c).hasNestedProjects = hn := rfl

theorem Project.nestedProjects_mk (n pa : String) (g hn : Bool)
    (c : Option (List Project)) : (Project.mk n pa g hn c).nestedProjects = c := rfl

/-- The node-map insertion preserves the flag invariant of claim C10. -/
theorem flagInv_insertSegs : ∀ (segs : List String) (pp : String) (forest : List Project),
    (∀ p ∈ forest, flagInv p) → ∀ p ∈ insertSegs pp forest segs, flagInv p := by
  intro segs
  induction segs with
  | nil => intro pp forest hall p hp; exact hall p hp
  | cons s rest ih =>
    intro pp forest hall p hp
    rw [insertSegs] at hp
    cases hf : forest.findIdx? (fun n => n.name == s) with
    | none =>
      simp only [hf] at hp
      rcases List.mem_append.mp hp with hmem | hnew
      · exact hall p hmem
      · rcases List.mem_singleton.mp hnew with rfl
        exact flagInv_newChain rest _ s
    | some i =>
      simp only [hf] at hp
      have hnode : forest.getD i (Project.mk "" "" false false none) ∈ forest :=
        findIdx?_getD_mem forest _ i _ hf
      have hnodeinv : flagInv (forest.getD i (Project.mk "" "" false false none)) :=
        hall _ hnode
      rcases List.mem_or_eq_of_mem_set hp with hmem | rfl
      · exact hall p hmem
      · rcases hnd : forest.getD i (Project.mk "" "" false false none) with
          ⟨n2, p2, g2, h2, c2⟩
        rw [hnd] at hnodeinv
        cases rest with
        | nil =>
          simp only [hnd, Project.name_mk, Project.path_mk, Project.hasNestedProjects_mk,
            Project.nestedProjects_mk]
          rcases c2 with _ | ch <;> exact hnodeinv
        | cons r rs =>
          simp only [hnd, Project.name_mk, Project.path_mk, Project.isGitRepo_mk,
            Project.hasNestedProjects_mk, Project.nestedProjects_mk]
          have hchildren : ∀ q ∈ (Option.getD c2 []), flagInv q := by
            rcases c2 with _ | ch
            · intro q hq; exact absurd hq (by simp)
            · intro q hq
              rcases hnodeinv with ⟨_, hlist⟩
              exact (flagInvList_iff ch).mp hlist q hq
          have hins := ih (pp ++ "/" ++ s) (Option.getD c2 []) hchildren
          have hne := insertSegs_ne_nil (pp ++ "/" ++ s) (Option.getD c2 []) r rs
          refine ⟨?_, (flagInvList_iff _).mpr hins⟩
          rcases Bool.eq_false_or_eq_true ((Option.getD c2 []).any fun c => c.name == r) with
            hany | hany
          swap
          · rw [if_neg (by rw [hany]; simp)]
            exact ⟨fun _ => hne, fun _ => rfl⟩
          · rw [if_pos hany]
            have hh2 : h2 = true := by
              rcases c2 with _ | ch
              · simp at hany
              · rcases List.any_eq_true.mp hany with ⟨c, hc, _⟩
                exact hnodeinv.1.mpr (List.ne_nil_of_mem hc)
            rw [hh2]
            exact ⟨fun _ => hne, fun _ => rfl⟩

/-- Sorting preserves the flag invariant of claim C10. -/
theorem flagInv_sortOne : ∀ p : Project, flagInv p → flagInv (sortOne p) := by
  intro p
  induction p using projInd with
  | h n pa g hn nested ihc =>
    rcases nested with _ | l
    · intro h; exact h
    · intro hinv
      rcases hinv with ⟨hiff, hlist⟩
      simp only [sortOne, flagInv]
      have hlen : (List.insertionSort nameLe (sortEach l)).length = l.length := by
        rw [(List.perm_insertionSort nameLe (sortEach l)).length_eq, sortEach_eq_map,
          List.length_map]
      have hne : (List.insertionSort nameLe (sortEach l)) ≠ [] ↔ l ≠ [] := by
        rw [← List.length_pos, ← List.length_pos, hlen]
      constructor
      · rw [hiff]
        exact hne.symm
      · rw [flagInvList_iff]
        intro q hq
        have hq2 : q ∈ sortEach l := (List.mem_insertionSort nameLe).mp hq
        rw [sortEach_eq_map] at hq2
        rcases List.mem_map.mp hq2 with ⟨x, hx, rfl⟩
        exact ihc x hx ((flagInvList_iff l).mp hlist x hx)

mutual

/-- Every entry emitted by the flattening traversal is a repository leaf
with cleared nesting fields. -/
theorem collectTraverse_shape : ∀ (p : Project) (rel : String),
    ∀ q ∈ collectTraverse p rel,
      q.hasNestedProjects = false ∧ q.nestedProjects = none ∧ q.isGitRepo = true
  | .mk n pa g hn none, rel => by
    intro q hq
    rw [collectTraverse] at hq
    cases g with
    | true => rcases List.mem_singleton.mp hq with rfl; exact ⟨rfl, rfl, rfl⟩
    | false => exact absurd hq (by simp)
  | .mk n pa g hn (some l), rel => by
    intro q hq
    rw [collectTraverse] at hq
    rcases List.mem_append.mp hq with hself | hrec
    · cases g with
      | true => rcases List.mem_singleton.mp hself with rfl; exact ⟨rfl, rfl, rfl⟩
      | false => exact absurd hself (by simp)
    · exact collectTraverseList_shape l rel q hrec

/-- Every entry emitted by the flattening of a child list is a repository
leaf with cleared nesting fields. -/
theorem collectTraverseList_shape : ∀ (l : List Project) (rel : String),
    ∀ q ∈ collectTraverseList l rel,
      q.hasNestedProjects = false ∧ q.nestedProjects = none ∧ q.isGitRepo = true
  | [], rel => by intro q hq; exact absurd hq (by simp [collectTraverseList])
  | c :: cs, rel => by
    intro q hq
    rw [collectTraverseList] at hq
    rcases List.mem_append.mp hq with hc | hcs
    · exact collectTraverse_shape c _ q hc
    · exact collectTraverseList_shape cs rel q hcs

end

/--
Claim C10: in every tree returned by the scanner, every node has
`hasNestedProjects = true` exactly when its `nestedProjects` field is
present and nonempty, recursively; and every flattened entry produced by
`collectNestedGitProjects` has `hasNestedProjects = false` and an absent
`nestedProjects` field, so it also satisfies the invariant.  The drill-down
guard reads exactly this flag.
-/
theorem hasNested_invariant (paths : List (List String)) (root : String) :
    (∀ p ∈ buildProjectTree paths root, flagInv p) ∧
    (∀ (p : Project) (b : String), ∀ q ∈ collectNestedGitProjects p b,
      q.hasNestedProjects = false ∧ q.nestedProjects = none ∧ flagInv q) := by
  constructor
  · intro p hp
    have hfold : ∀ p2 ∈ (paths.foldl (fun forest segs => insertSegs root forest segs) []),
        flagInv p2 := by
      have hgen : ∀ (ps : List (List String)) (start : List Project),
          (∀ p2 ∈ start, flagInv p2) →
          ∀ p2 ∈ (ps.foldl (fun forest segs => insertSegs root forest segs) start),
            flagInv p2 := by
        intro ps
        induction ps with
        | nil => intro start h; exact h
        | cons segs rest ih =>
          intro start h
          exact ih _ (flagInv_insertSegs segs root start h)
      exact hgen paths [] (by intro p2 hp2; exact absurd hp2 (by simp))
    rw [buildProjectTree, sortProjects] at hp
    have hp2 := (List.mem_insertionSort nameLe).mp hp
    rw [sortEach_eq_map] at hp2
    rcases List.mem_map.mp hp2 with ⟨x, hx, rfl⟩
    exact flagInv_sortOne x (hfold x hx)
  · intro p b q hq
    rw [collectNestedGitProjects] at hq
    rcases hn : p.nestedProjects with _ | l
    · rw [hn] at hq; exact absurd hq (by simp)
    · rw [hn] at hq
      have hshape := collectTraverseList_shape l "" q hq
      refine ⟨hshape.1, hshape.2.1, ?_⟩
      rcases q with ⟨n2, p2, g2, h2, c2⟩
      have h1 : h2 = false := hshape.1
      have h2n : c2 = none := hshape.2.1
      rw [h1, h2n]
      simp [flagInv]

/-- Witness for claim C10 on a concrete scan: the container node carries
the flag with a nonempty child list and the leaf does not. -/
theorem hasNested_invariant_witness :
    (∀ p ∈ buildProjectTree [["beta", "gamma"], ["alpha"]] "/R", flagInv p) ∧
    flagInv (Project.mk "beta" "/R/beta" false true
      (some [Project.mk "gamma" "/R/beta/gamma" true false none])) := by
  refine ⟨(hasNested_invariant [["beta", "gamma"], ["alpha"]] "/R").1, ?_⟩
  have h := (hasNested_invariant [["beta", "gamma"], ["alpha"]] "/R").1
    (Project.mk "beta" "/R/beta" false true
      (some [Project.mk "gamma" "/R/beta/gamma" true false none]))
  apply h
  rw [show buildProjectTree [["beta", "gamma"], ["alpha"]] "/R" =
    [Project.mk "alpha" "/R/alpha" true false none,
     Project.mk "beta" "/R/beta" false true
       (some [Project.mk "gamma" "/R/beta/gamma" true false none])] from rfl]
  exact List.mem_cons_of_mem _ (List.mem_cons_self _ _)

/-- The code-point comparison is total. -/
theorem charListLe_total : ∀ xs ys : List Char,
    charListLe xs ys = true ∨ charListLe ys xs = true := by
  intro xs
  induction xs with
  | nil => intro ys; exact Or.inl rfl
  | cons a as ih =>
    intro ys
    cases ys with
    | nil => exact Or.inr rfl
    | cons b bs =>
      by_cases hab : a = b
      · subst hab
        rcases ih bs with h | h
        · exact Or.inl (by simp [charListLe, h])
        · exact Or.inr (by simp [charListLe, h])
      · have hne : a.toNat ≠ b.toNat := fun hcontra => hab (Char.ext (UInt32.ext hcontra))
        rcases Nat.lt_or_ge a.toNat b.toNat with hlt | hge
        · exact Or.inl (by simp [charListLe, hab, hlt])
        · have hgt : b.toNat < a.toNat := Nat.lt_of_le_of_ne hge fun e => hne e.symm
          exact Or.inr (by simp [charListLe, Ne.symm hab, hgt])

/-- The code-point comparison is transitive. -/
theorem charListLe_trans : ∀ xs ys zs : List Char,
    charListLe xs ys = true → charListLe ys zs = true → charListLe xs zs = true := by
  intro xs
  induction xs with
  | nil => intro ys zs _ _; rfl
  | cons a as ih =>
    intro ys zs h1 h2
    cases ys with
    | nil => exact absurd h1 (by simp [charListLe])
    | cons b bs =>
      cases zs with
      | nil => exact absurd h2 (by simp [charListLe])
      | cons c cs =>
        by_cases hab : a = b
        · subst hab
          by_cases hac : a = c
          · subst hac
            simp only [charListLe, if_pos rfl] at h1 h2 ⊢
            exact ih bs cs h1 h2
          · simp only [charListLe, if_neg hac] at h2 ⊢
            exact h2
        · by_cases hbc : b = c
          · subst hbc
            simp only [charListLe, if_neg hab] at h1 ⊢
            exact h1
          · simp only [charListLe, if_neg hab] at h1
            simp only [charListLe, if_neg hbc] at h2
            have hlt1 : a.toNat < b.toNat := of_decide_eq_true h1
            have hlt2 : b.toNat < c.toNat := of_decide_eq_true h2
            have hlt : a.toNat < c.toNat := Nat.lt_trans hlt1 hlt2
            have hac : a ≠ c := fun e => by
              subst e
              exact Nat.lt_irrefl _ hlt
            simp only [charListLe, if_neg hac]
            exact decide_eq_true hlt

/-- The name comparator of `sortProjects` is total. -/
theorem nameLe_total : ∀ a b : Project, nameLe a b ∨ nameLe b a := fun a b =>
  charListLe_total a.name.data b.name.data

/-- The name comparator of `sortProjects` is transitive. -/
theorem nameLe_trans : ∀ a b c : Project, nameLe a b → nameLe b c → nameLe a c :=
  fun a b c h1 h2 => charListLe_trans a.name.data b.name.data c.name.data h1 h2

/-- A string is determined by its character list. -/
theorem strDataInj : ∀ a b : String, a.data = b.data → a = b
  | ⟨_⟩, ⟨_⟩, h => congrArg String.mk h

/-- The code-point comparison is antisymmetric. -/
theorem charListLe_antisymm : ∀ xs ys : List Char,
    charListLe xs ys = true → charListLe ys xs = true → xs = ys
  | [], [], _, _ => rfl
  | [], y :: ys, _, h2 => by
    rw [charListLe] at h2
    exact absurd h2 (by decide)
  | x :: xs, [], h1, _ => by
    rw [charListLe] at h1
    exact absurd h1 (by decide)
  | x :: xs, y :: ys, h1, h2 => by
    rw [charListLe] at h1 h2
    by_cases hxy : x = y
    · rw [if_pos hxy] at h1
      rw [if_pos hxy.symm] at h2
      rw [hxy, charListLe_antisymm xs ys h1 h2]
    · exfalso
      rw [if_neg hxy] at h1
      rw [if_neg (fun h => hxy h.symm)] at h2
      have hlt1 := of_decide_eq_true h1
      have hlt2 := of_decide_eq_true h2
      omega

/-- The counterexample comparator is total. -/
theorem caseInsLe_total : ∀ a b : String, caseInsLe a b = true ∨ caseInsLe b a = true := by
  intro a b
  rw [caseInsLe, caseInsLe]
  by_cases heq : strToLower a = strToLower b
  · rw [if_pos heq, if_pos heq.symm]
    exact charListLe_total a.data b.data
  · rw [if_neg heq, if_neg (fun h => heq h.symm)]
    exact charListLe_total (strToLower a).data (strToLower b).data

/-- The counterexample comparator is transitive. -/
theorem caseInsLe_trans : ∀ a b c : String, caseInsLe a b = true → caseInsLe b c = true →
    caseInsLe a c = true := by
  intro a b c h1 h2
  rw [caseInsLe] at h1 h2 ⊢
  by_cases hab : strToLower a = strToLower b
  · by_cases hbc : strToLower b = strToLower c
    · rw [if_pos hab] at h1
      rw [if_pos hbc] at h2
      rw [if_pos (hab.trans hbc)]
      exact charListLe_trans a.data b.data c.data h1 h2
    · rw [if_pos hab] at h1
      rw [if_neg hbc] at h2
      rw [if_neg (fun h => hbc (hab.symm.trans h))]
      rw [hab]
      exact h2
  · by_cases hbc : strToLower b = strToLower c
    · rw [if_neg hab] at h1
      rw [if_pos hbc] at h2
      rw [if_neg (fun h => hab (h.trans hbc.symm))]
      rw [← hbc]
      exact h1
    · rw [if_neg hab] at h1
      rw [if_neg hbc] at h2
      by_cases hac : strToLower a = strToLower c
      · exfalso
        rw [hac] at h1
        have hdata := charListLe_antisymm (strToLower b).data (strToLower c).data h2 h1
        exact hbc (strDataInj _ _ hdata)
      · rw [if_neg hac]
        exact charListLe_trans (strToLower a).data (strToLower b).data
          (strToLower c).data h1 h2

/-- Every subtree sorted with a consistent comparator satisfies the
recursive sortedness predicate for that comparator. -/
theorem sortedTreeBy_sortOneBy (le : String → String → Bool)
    (htot : ∀ a b, le a b = true ∨ le b a = true)
    (htrans : ∀ a b c, le a b = true → le b c = true → le a c = true) :
    ∀ p : Project, sortedTreeBy le (sortOneBy le p) := by
  intro p
  induction p using projInd with
  | h n pa g hn nested ihc =>
    rcases nested with _ | l
    · exact trivial
    · simp only [sortOneBy, sortedTreeBy]
      constructor
      · exact @List.sorted_insertionSort Project (nameLeBy le) _
          ⟨fun a b => htot a.name b.name⟩ ⟨fun a b c => htrans a.name b.name c.name⟩
          (sortEachBy le l)
      · rw [sortedTreeListBy_iff]
        intro q hq
        have hq2 := (List.mem_insertionSort (nameLeBy le)).mp hq
        rw [sortEachBy_eq_map] at hq2
        rcases List.mem_map.mp hq2 with ⟨x, hx, rfl⟩
        exact ihc x hx

/--
Claim C4, corrected.  The source sorts children with
`a.name.localeCompare(b.name)`, a locale-dependent collation, not the
case-sensitive lexical (code-point) order the claim states.  What holds:
for every consistent comparator `le` (and `localeCompare` is one), the
root list returned by the scanner is sorted by name in that comparator
order, and every node of every returned tree has its children sorted by
name in that order, recursively at every level.  The counterexample shows
a consistent comparator behaving like default ICU collation under which a
returned tree violates case-sensitive lexical sortedness.
-/
theorem buildProjectTreeBy_sorted (le : String → String → Bool)
    (htot : ∀ a b, le a b = true ∨ le b a = true)
    (htrans : ∀ a b c, le a b = true → le b c = true → le a c = true)
    (paths : List (List String)) (root : String) :
    List.Pairwise (nameLeBy le) (buildProjectTreeBy le paths root) ∧
    ∀ p ∈ buildProjectTreeBy le paths root, sortedTreeBy le p := by
  constructor
  · rw [buildProjectTreeBy, sortProjectsBy]
    exact @List.sorted_insertionSort Project (nameLeBy le) _
      ⟨fun a b => htot a.name b.name⟩ ⟨fun a b c => htrans a.name b.name c.name⟩ _
  · intro p hp
    rw [buildProjectTreeBy, sortProjectsBy] at hp
    have hp2 := (List.mem_insertionSort (nameLeBy le)).mp hp
    rw [sortEachBy_eq_map] at hp2
    rcases List.mem_map.mp hp2 with ⟨x, _, rfl⟩
    exact sortedTreeBy_sortOneBy le htot htrans x

/-- Witness for the corrected claim C4 at the concrete code-point
comparator on a scan with out-of-order input: the root list and the
children of the container come out sorted in that comparator order. -/
theorem buildProjectTreeBy_sorted_witness :
    buildProjectTreeBy strLe [["c", "b"], ["c", "a"], ["a"]] "/R" =
      [Project.mk "a" "/R/a" true false none,
       Project.mk "c" "/R/c" false true
         (some [Project.mk "a" "/R/c/a" true false none,
                Project.mk "b" "/R/c/b" true false none])] ∧
    List.Pairwise (nameLeBy strLe)
      (buildProjectTreeBy strLe [["c", "b"], ["c", "a"], ["a"]] "/R") := by
  refine ⟨rfl, ?_⟩
  exact (buildProjectTreeBy_sorted strLe
    (fun a b => charListLe_total a.data b.data)
    (fun a b c => charListLe_trans a.data b.data c.data)
    [["c", "b"], ["c", "a"], ["a"]] "/R").1

/-- Counterexample to the original claim C4: `caseInsLe` is a consistent
comparator that, like default ICU collation, puts `apple` before `Zebra`;
the tree the scanner returns when sorting with it has its root children in
the order `apple`, `Zebra`, which is not sorted in case-sensitive lexical
order (`nameLe`, the code-point order, puts `Zebra` first). -/
theorem buildProjectTreeBy_sorted_cex :
    comparatorOk caseInsLe ∧
    buildProjectTreeBy caseInsLe [["Zebra"], ["apple"]] "/R" =
      [Project.mk "apple" "/R/apple" true false none,
       Project.mk "Zebra" "/R/Zebra" true false none] ∧
    ¬ List.Pairwise nameLe (buildProjectTreeBy caseInsLe [["Zebra"], ["apple"]] "/R") := by
  refine ⟨⟨caseInsLe_total, caseInsLe_trans⟩, rfl, ?_⟩
  intro h
  rw [show buildProjectTreeBy caseInsLe [["Zebra"], ["apple"]] "/R" =
    [Project.mk "apple" "/R/apple" true false none,
     Project.mk "Zebra" "/R/Zebra" true false none] from rfl] at h
  rcases List.pairwise_cons.mp h with ⟨h1, _⟩
  have h2 := h1 _ (List.mem_cons_self _ _)
  exact absurd h2 (by decide)

/-- A slash-joined string is never empty. -/
theorem append_slash_ne (a b : String) : a ++ "/" ++ b ≠ "" := by
  intro h
  have hd := congrArg String.data h
  rw [String.data_append, String.data_append] at hd
  simp at hd

/-- Joining a chain after an accumulated slash-joined prefix. -/
theorem joinSegs_cons_append (a b : String) (t : List String) :
    joinSegs ((a ++ "/" ++ b) :: t) = a ++ "/" ++ joinSegs (b :: t) := by
  cases t with
  | nil => rfl
  | cons y ys =>
    show (a ++ "/" ++ b) ++ "/" ++ joinSegs (y :: ys) =
      a ++ "/" ++ (b ++ "/" ++ joinSegs (y :: ys))
    simp [String.append_assoc]

/-- The block of a child inside the depth-first enumeration, re-based from
an accumulated prefix. -/
theorem descChains_block_eq (rel : String) (c : Project) :
    ((descChains c).filter fun x => x.2.isGitRepo).map
        (fun x => (joinSegs ((rel ++ "/" ++ c.name) :: x.1), x.2.path)) =
      ((((descChains c).map fun x => (c.name :: x.1, x.2)).filter
          fun x => x.2.isGitRepo).map
        fun x => (joinSegs (rel :: x.1), x.2.path)) := by
  rw [List.filter_map]
  rw [List.map_map]
  apply List.map_congr_left
  intro x hx
  show (joinSegs ((rel ++ "/" ++ c.name) :: x.1), x.2.path) =
    (joinSegs (rel :: c.name :: x.1), x.2.path)
  rw [joinSegs_cons_append]
  rfl

mutual

/-- The flattening traversal of one node with a nonempty accumulated
prefix enumerates the node itself and its strict descendants in
depth-first order, keeping the repositories, with slash-joined display
names. -/
theorem collectTraverse_spec : ∀ (p : Project) (rel : String), rel ≠ "" →
    (collectTraverse p rel).map (fun q => (q.name, q.path)) =
      (((([] : List String), p) :: descChains p).filter fun x => x.2.isGitRepo).map
        (fun x => (joinSegs (rel :: x.1), x.2.path))
  | .mk n pa g hn none, rel, hrel => by
    rw [collectTraverse, descChains]
    cases g with
    | true => rfl
    | false => rfl
  | .mk n pa g hn (some l), rel, hrel => by
    rw [collectTraverse, descChains, List.map_append,
      collectTraverseList_spec l rel hrel]
    cases g with
    | true =>
      rw [List.filter_cons]
      rw [if_pos (by rfl)]
      rfl
    | false =>
      rw [List.filter_cons]
      rw [if_neg (by simp [Project.isGitRepo_mk])]
      rfl

/-- The flattening traversal of a child list with a nonempty accumulated
prefix matches the depth-first enumeration of the list. -/
theorem collectTraverseList_spec : ∀ (l : List Project) (rel : String), rel ≠ "" →
    (collectTraverseList l rel).map (fun q => (q.name, q.path)) =
      ((descChainsList l).filter fun x => x.2.isGitRepo).map
        (fun x => (joinSegs (rel :: x.1), x.2.path))
  | [], rel, hrel => rfl
  | c :: cs, rel, hrel => by
    rw [collectTraverseList, descChainsList, if_neg hrel, List.map_append,
      collectTraverse_spec c (rel ++ "/" ++ c.name) (append_slash_ne rel c.name),
      collectTraverseList_spec cs rel hrel]
    simp only [List.filter_cons, List.filter_append, List.map_append]
    by_cases hg : c.isGitRepo = true
    · rw [if_pos hg, if_pos hg, List.map_cons, List.map_cons, descChains_block_eq rel c]
      rfl
    · rw [if_neg hg, if_neg hg, descChains_block_eq rel c]

end

/-- The block of a child inside the depth-first enumeration, rendered with
the child name as the first segment. -/
theorem descChains_block_top (c : Project) :
    ((descChains c).filter fun x => x.2.isGitRepo).map
        (fun x => (joinSegs (c.name :: x.1), x.2.path)) =
      ((((descChains c).map fun x => (c.name :: x.1, x.2)).filter
          fun x => x.2.isGitRepo).map
        fun x => (joinSegs x.1, x.2.path)) := by
  rw [List.filter_map, List.map_map]
  rfl

/-- The flattening traversal of a child list started with an empty
accumulated prefix matches the depth-first enumeration of the list, each
chain starting with the name of its root child. -/
theorem collectTraverseList_top : ∀ l : List Project, (∀ c ∈ l, c.name ≠ "") →
    (collectTraverseList l "").map (fun q => (q.name, q.path)) =
      ((descChainsList l).filter fun x => x.2.isGitRepo).map
        (fun x => (joinSegs x.1, x.2.path))
  | [], _ => rfl
  | c :: cs, hnames => by
    rw [collectTraverseList, descChainsList, if_pos rfl, List.map_append,
      collectTraverse_spec c c.name (hnames c (List.mem_cons_self c cs)),
      collectTraverseList_top cs (fun d hd => hnames d (List.mem_cons_of_mem c hd))]
    simp only [List.filter_cons, List.filter_append, List.map_append]
    by_cases hg : c.isGitRepo = true
    · rw [if_pos hg, if_pos hg, List.map_cons, List.map_cons, descChains_block_top c]
    · rw [if_neg hg, if_neg hg, descChains_block_top c]

/-- `collectNestedGitProjects` computes, entrywise on display name and path,
exactly the specification-side flattening of the strict descendants. -/
theorem collectNestedGitProjects_spec (p : Project) (b : String)
    (hnames : ∀ c ∈ p.children, c.name ≠ "") :
    (collectNestedGitProjects p b).map (fun q => (q.name, q.path)) = specFlatten p := by
  rcases p with ⟨n, pa, g, hn, _ | l⟩
  · rfl
  · exact collectTraverseList_top l hnames

/-- Every chain of the depth-first enumeration of a forest starts with the
name of one of its roots. -/
theorem descChainsList_head : ∀ l : List Project, ∀ x ∈ descChainsList l,
    ∃ c ∈ l, ∃ t, x.1 = c.name :: t
  | [], x, hx => by
    rw [descChainsList] at hx
    exact absurd hx (List.not_mem_nil x)
  | c :: cs, x, hx => by
    rw [descChainsList] at hx
    rcases List.mem_cons.mp hx with h | hx2
    · exact ⟨c, List.mem_cons_self c cs, [], by rw [h]⟩
    · rcases List.mem_append.mp hx2 with hmap | hcs
      · rcases List.mem_map.mp hmap with ⟨y, hy, h⟩
        exact ⟨c, List.mem_cons_self c cs, y.1, by rw [← h]⟩
      · rcases descChainsList_head cs x hcs with ⟨d, hd, t, ht⟩
        exact ⟨d, List.mem_cons_of_mem c hd, t, ht⟩

/-- Chains of the depth-first enumeration of a forest are nonempty. -/
theorem descChainsList_ne_nil (l : List Project) : ∀ x ∈ descChainsList l, x.1 ≠ [] := by
  intro x hx
  rcases descChainsList_head l x hx with ⟨c, _, t, ht⟩
  rw [ht]
  exact List.cons_ne_nil _ _

/-- Chains of the depth-first enumeration of a tree are nonempty. -/
theorem descChains_ne_nil (p : Project) : ∀ x ∈ descChains p, x.1 ≠ [] := by
  rcases p with ⟨n, pa, g, hn, _ | l⟩
  · intro x hx
    rw [descChains] at hx
    exact absurd hx (List.not_mem_nil x)
  · intro x hx
    rw [descChains] at hx
    exact descChainsList_ne_nil l x hx

/-- Unpacking of the segment test: a usable segment has nonempty text and
no slash. -/
theorem segOk_spec (s : String) (h : segOk s = true) :
    s.data ≠ [] ∧ ¬ '/' ∈ s.data := by
  rw [segOk, Bool.and_eq_true, Bool.not_eq_true', Bool.not_eq_true'] at h
  constructor
  · intro he
    rw [he] at h
    exact absurd h.1 (by decide)
  · intro hmem
    have hc : s.data.contains '/' = true := List.elem_eq_true_of_mem hmem
    rw [hc] at h
    exact absurd h.2 (by decide)

/-- The name of a well-formed node is a usable segment. -/
theorem treeOk_name (p : Project) (h : treeOk p = true) : segOk p.name = true := by
  rcases p with ⟨n, pa, g, hn, _ | l⟩
  · exact h
  · rw [treeOk, Bool.and_eq_true, Bool.and_eq_true] at h
    exact h.1.1

/-- The children of a well-formed node form a well-formed forest with
pairwise-distinct names. -/
theorem treeOk_children (p : Project) (h : treeOk p = true) :
    treeOkList p.children = true ∧ namesNodupB p.children = true := by
  rcases p with ⟨n, pa, g, hn, _ | l⟩
  · exact ⟨rfl, rfl⟩
  · rw [treeOk, Bool.and_eq_true, Bool.and_eq_true] at h
    exact ⟨h.2, h.1.2⟩

mutual

/-- Under well-formedness every segment on every descendant chain of a tree
is a usable segment. -/
theorem treeOk_chains : ∀ p : Project, treeOk p = true →
    ∀ x ∈ descChains p, ∀ s ∈ x.1, segOk s = true
  | .mk n pa g hn none, hok => by
    intro x hx
    rw [descChains] at hx
    exact absurd hx (List.not_mem_nil x)
  | .mk n pa g hn (some l), hok => by
    intro x hx
    rw [descChains] at hx
    rw [treeOk, Bool.and_eq_true, Bool.and_eq_true] at hok
    exact treeOkList_chains l hok.2 x hx

/-- Under well-formedness every segment on every descendant chain of a
forest is a usable segment. -/
theorem treeOkList_chains : ∀ l : List Project, treeOkList l = true →
    ∀ x ∈ descChainsList l, ∀ s ∈ x.1, segOk s = true
  | [], _ => by
    intro x hx
    rw [descChainsList] at hx
    exact absurd hx (List.not_mem_nil x)
  | c :: cs, hok => by
    intro x hx s hs
    rw [treeOkList, Bool.and_eq_true] at hok
    rw [descChainsList] at hx
    rcases List.mem_cons.mp hx with h | hx2
    · rw [h] at hs
      have hs2 : s = c.name := List.mem_singleton.mp hs
      rw [hs2]
      exact treeOk_name c hok.1
    · rcases List.mem_append.mp hx2 with hmap | hcs
      · rcases List.mem_map.mp hmap with ⟨y, hy, hyx⟩
        rw [← hyx] at hs
        rcases List.mem_cons.mp hs with h2 | hs3
        · rw [h2]
          exact treeOk_name c hok.1
        · exact treeOk_chains c hok.1 y hy s hs3
      · exact treeOkList_chains cs hok.2 x hcs s hs

end

mutual

/-- Under well-formedness the descendant chains of a tree are pairwise
distinct. -/
theorem treeOk_chains_nodup : ∀ p : Project, treeOk p = true →
    ((descChains p).map fun x => x.1).Nodup
  | .mk n pa g hn none, hok => by
    rw [descChains]
    exact List.nodup_nil
  | .mk n pa g hn (some l), hok => by
    rw [descChains]
    rw [treeOk, Bool.and_eq_true, Bool.and_eq_true] at hok
    exact treeOkList_chains_nodup l hok.2 hok.1.2

/-- Under well-formedness the descendant chains of a forest are pairwise
distinct. -/
theorem treeOkList_chains_nodup : ∀ l : List Project, treeOkList l = true →
    namesNodupB l = true → ((descChainsList l).map fun x => x.1).Nodup
  | [], _, _ => by
    rw [descChainsList]
    exact List.nodup_nil
  | c :: cs, hok, hnd => by
    rw [treeOkList, Bool.and_eq_true] at hok
    have hnd2 := (namesNodupB_iff (c :: cs)).mp hnd
    rw [List.map_cons, List.nodup_cons] at hnd2
    have hnotin : c.name ∉ cs.map Project.name := hnd2.1
    have hndcs : namesNodupB cs = true := (namesNodupB_iff cs).mpr hnd2.2
    rw [descChainsList]
    simp only [List.cons_append, List.map_cons, List.map_append]
    rw [List.nodup_cons]
    constructor
    · intro hmem
      rcases List.mem_append.mp hmem with h1 | h2
      · rcases List.mem_map.mp h1 with ⟨y, hy, hyx⟩
        rcases List.mem_map.mp hy with ⟨z, hz, hzy⟩
        rw [← hzy] at hyx
        have hyx2 : c.name :: z.1 = [c.name] := hyx
        injection hyx2 with h1a h1b
        exact descChains_ne_nil c z hz h1b
      · rcases List.mem_map.mp h2 with ⟨y, hy, hyx⟩
        rcases descChainsList_head cs y hy with ⟨d, hd, t, ht⟩
        have hyx2 : y.1 = [c.name] := hyx
        rw [ht] at hyx2
        injection hyx2 with h2a h2b
        exact hnotin (List.mem_map.mpr ⟨d, hd, h2a⟩)
    · apply List.Nodup.append
      · have hmm : List.map (fun x : List String × Project => x.1)
              (List.map (fun x : List String × Project => (c.name :: x.1, x.2))
                (descChains c)) =
            List.map (fun t => c.name :: t)
              (List.map (fun x : List String × Project => x.1) (descChains c)) := by
          rw [List.map_map, List.map_map]
          exact List.map_congr_left fun x hx => rfl
        rw [hmm]
        apply List.Nodup.map
        · intro a b h
          injection h with h1 h2
        · exact treeOk_chains_nodup c hok.1
      · exact treeOkList_chains_nodup cs hok.2 hndcs
      · intro a ha1 ha2
        rcases List.mem_map.mp ha1 with ⟨y, hy, hyx⟩
        rcases List.mem_map.mp hy with ⟨w, hw, hwy⟩
        rcases List.mem_map.mp ha2 with ⟨z, hz, hzx⟩
        rcases descChainsList_head cs z hz with ⟨d, hd, t, ht⟩
        rw [← hwy] at hyx
        have h1 : c.name :: w.1 = a := hyx
        have h2 : z.1 = a := hzx
        rw [ht] at h2
        rw [← h2] at h1
        injection h1 with hh _
        exact hnotin (List.mem_map.mpr ⟨d, hd, hh.symm⟩)

end

/-- Character-list rendering of joining at least two segments. -/
theorem joinSegs_data_cons (s y : String) (t : List String) :
    (joinSegs (s :: y :: t)).data = s.data ++ '/' :: (joinSegs (y :: t)).data := by
  show (s ++ "/" ++ joinSegs (y :: t)).data = _
  rw [String.data_append, String.data_append, List.append_assoc]
  rfl

/-- Two slash-free prefixes followed by a slash split a character list
uniquely. -/
theorem slashfree_append_inj : ∀ a1 a2 t1 t2 : List Char,
    ¬ '/' ∈ a1 → ¬ '/' ∈ a2 → a1 ++ '/' :: t1 = a2 ++ '/' :: t2 →
    a1 = a2 ∧ t1 = t2
  | [], [], t1, t2, _, _, heq => by
    refine ⟨rfl, ?_⟩
    injection heq with h1 h2
  | [], b :: bs, t1, t2, _, h2, heq => by
    exfalso
    rw [List.nil_append] at heq
    injection heq with hb hrest
    exact h2 (by rw [hb]; exact List.mem_cons_self b bs)
  | a :: as, [], t1, t2, h1, _, heq => by
    exfalso
    rw [List.nil_append] at heq
    rw [List.cons_append] at heq
    injection heq with ha hrest
    exact h1 (by rw [← ha]; exact List.mem_cons_self a as)
  | a :: as, b :: bs, t1, t2, h1, h2, heq => by
    rw [List.cons_append, List.cons_append] at heq
    injection heq with hab hrest
    have h1a : ¬ '/' ∈ as := fun hm => h1 (List.mem_cons_of_mem a hm)
    have h2a : ¬ '/' ∈ bs := fun hm => h2 (List.mem_cons_of_mem b hm)
    rcases slashfree_append_inj as bs t1 t2 h1a h2a hrest with ⟨hei, het⟩
    exact ⟨by rw [hab, hei], het⟩

/-- On nonempty chains of usable segments the slash-join is injective. -/
theorem joinSegs_inj : ∀ xs ys : List String, xs ≠ [] → ys ≠ [] →
    (∀ s ∈ xs, segOk s = true) → (∀ s ∈ ys, segOk s = true) →
    joinSegs xs = joinSegs ys → xs = ys
  | [], _, hxs, _, _, _, _ => absurd rfl hxs
  | _ :: _, [], _, hys, _, _, _ => absurd rfl hys
  | [x], [y], _, _, _, _, heq => by
    rw [show joinSegs [x] = x from rfl, show joinSegs [y] = y from rfl] at heq
    rw [heq]
  | [x], y :: y2 :: yt, _, _, hxok, hyok, heq => by
    exfalso
    have hd := congrArg String.data heq
    rw [show joinSegs [x] = x from rfl, joinSegs_data_cons y y2 yt] at hd
    have hm : '/' ∈ x.data := by
      rw [hd]
      exact List.mem_append_right _ (List.mem_cons_self _ _)
    exact (segOk_spec x (hxok x (List.mem_cons_self x []))).2 hm
  | x :: x2 :: xt, [y], _, _, hxok, hyok, heq => by
    exfalso
    have hd := congrArg String.data heq
    rw [show joinSegs [y] = y from rfl, joinSegs_data_cons x x2 xt] at hd
    have hm : '/' ∈ y.data := by
      rw [← hd]
      exact List.mem_append_right _ (List.mem_cons_self _ _)
    exact (segOk_spec y (hyok y (List.mem_cons_self y []))).2 hm
  | x :: x2 :: xt, y :: y2 :: yt, _, _, hxok, hyok, heq => by
    have hd := congrArg String.data heq
    rw [joinSegs_data_cons x x2 xt, joinSegs_data_cons y y2 yt] at hd
    have hx := segOk_spec x (hxok x (List.mem_cons_self _ _))
    have hy := segOk_spec y (hyok y (List.mem_cons_self _ _))
    rcases slashfree_append_inj x.data y.data _ _ hx.2 hy.2 hd with ⟨h1, h2⟩
    have hxy : x = y := strDataInj x y h1
    have hrest : joinSegs (x2 :: xt) = joinSegs (y2 :: yt) := strDataInj _ _ h2
    have htail : x2 :: xt = y2 :: yt :=
      joinSegs_inj (x2 :: xt) (y2 :: yt) (List.cons_ne_nil _ _) (List.cons_ne_nil _ _)
        (fun s hs => hxok s (List.mem_cons_of_mem x hs))
        (fun s hs => hyok s (List.mem_cons_of_mem y hs)) hrest
    rw [hxy, htail]

/-- Under well-formedness the slash-joined display names of the
specification-side flattening are pairwise distinct. -/
theorem specFlatten_names_nodup (p : Project) (hok : treeOk p = true) :
    ((specFlatten p).map fun x => x.1).Nodup := by
  rw [specFlatten, List.map_map]
  have hshape : ((fun x : String × String => x.1) ∘
      fun x : List String × Project => (joinSegs x.1, x.2.path)) =
      (fun t : List String => joinSegs t) ∘ (fun x : List String × Project => x.1) := rfl
  rw [hshape, ← List.map_map]
  apply List.Nodup.map_on
  · intro a ha b hb heq
    rcases List.mem_map.mp ha with ⟨x, hx, hxa⟩
    rcases List.mem_map.mp hb with ⟨y, hy, hyb⟩
    have hx2 : x ∈ descChains p := List.mem_of_mem_filter hx
    have hy2 : y ∈ descChains p := List.mem_of_mem_filter hy
    apply joinSegs_inj a b
    · rw [← hxa]
      exact descChains_ne_nil p x hx2
    · rw [← hyb]
      exact descChains_ne_nil p y hy2
    · intro s hs
      rw [← hxa] at hs
      exact treeOk_chains p hok x hx2 s hs
    · intro s hs
      rw [← hyb] at hs
      exact treeOk_chains p hok y hy2 s hs
    · exact heq
  · exact List.Nodup.sublist ((List.filter_sublist _).map _) (treeOk_chains_nodup p hok)

/-- The name of every child of a well-formed node is nonempty. -/
theorem treeOk_children_names (p : Project) (hok : treeOk p = true) :
    ∀ c ∈ p.children, c.name ≠ "" := by
  intro c hc he
  have hcok := (treeOkList_iff p.children).mp (treeOk_children p hok).1 c hc
  have hseg := segOk_spec c.name (treeOk_name c hcok)
  apply hseg.1
  rw [he]

/-- Taking the chain of a prefixed enumeration block prefixes the chains. -/
theorem map_fst_prefixed (nm : String) (l : List (List String × Project)) :
    List.map (fun x : List String × Project => x.1)
        (List.map (fun x : List String × Project => (nm :: x.1, x.2)) l) =
      List.map (fun t => nm :: t)
        (List.map (fun x : List String × Project => x.1) l) := by
  rw [List.map_map, List.map_map]
  exact List.map_congr_left fun x hx => rfl

mutual

/-- In a well-formed sorted tree the descendant chains are strictly
increasing in the lexicographic order on alphabetically ordered segment
names: depth-first order of a sorted tree is alphabetical. -/
theorem sorted_chains_lex (le : String → String → Bool) :
    ∀ p : Project, treeOk p = true → sortedTreeBy le p →
    List.Pairwise (List.Lex (strLtBy le)) ((descChains p).map fun x => x.1)
  | .mk n pa g hn none, hok, hs => by
    rw [descChains]
    exact List.Pairwise.nil
  | .mk n pa g hn (some l), hok, hs => by
    rw [descChains]
    rw [treeOk, Bool.and_eq_true, Bool.and_eq_true] at hok
    rw [sortedTreeBy] at hs
    exact sortedList_chains_lex le l hok.2 hok.1.2 hs.1 hs.2

/-- Forest version of the alphabetical depth-first chain ordering. -/
theorem sortedList_chains_lex (le : String → String → Bool) :
    ∀ l : List Project, treeOkList l = true →
    namesNodupB l = true → List.Pairwise (nameLeBy le) l → sortedTreeListBy le l →
    List.Pairwise (List.Lex (strLtBy le)) ((descChainsList l).map fun x => x.1)
  | [], _, _, _, _ => by
    rw [descChainsList]
    exact List.Pairwise.nil
  | c :: cs, hok, hnd, hpl, hsl => by
    rw [treeOkList, Bool.and_eq_true] at hok
    rw [sortedTreeListBy] at hsl
    rw [List.pairwise_cons] at hpl
    have hnd2 := (namesNodupB_iff (c :: cs)).mp hnd
    rw [List.map_cons, List.nodup_cons] at hnd2
    have hnotin : c.name ∉ cs.map Project.name := hnd2.1
    have hndcs : namesNodupB cs = true := (namesNodupB_iff cs).mpr hnd2.2
    have hlt : ∀ d ∈ cs, strLtBy le c.name d.name := by
      intro d hd
      refine ⟨hpl.1 d hd, ?_⟩
      intro he
      exact hnotin (List.mem_map.mpr ⟨d, hd, he.symm⟩)
    rw [descChainsList]
    simp only [List.cons_append, List.map_cons, List.map_append]
    rw [List.pairwise_cons]
    constructor
    · intro y hy
      rcases List.mem_append.mp hy with h1 | h2
      · rcases List.mem_map.mp h1 with ⟨z, hz, hzy⟩
        rcases List.mem_map.mp hz with ⟨w, hw, hwz⟩
        rw [← hwz] at hzy
        have hzy2 : c.name :: w.1 = y := hzy
        rw [← hzy2]
        have hne := descChains_ne_nil c w hw
        cases hw1 : w.1 with
        | nil => exact absurd hw1 hne
        | cons s ss => exact List.Lex.cons List.Lex.nil
      · rcases List.mem_map.mp h2 with ⟨z, hz, hzy⟩
        rcases descChainsList_head cs z hz with ⟨d, hd, t, ht⟩
        have hzy2 : z.1 = y := hzy
        rw [← hzy2, ht]
        exact List.Lex.rel (hlt d hd)
    · rw [List.pairwise_append]
      refine ⟨?_, ?_, ?_⟩
      · rw [map_fst_prefixed, List.pairwise_map]
        exact List.Pairwise.imp (fun h => List.Lex.cons h)
          (sorted_chains_lex le c hok.1 hsl.1)
      · exact sortedList_chains_lex le cs hok.2 hndcs hpl.2 hsl.2
      · intro a ha b hb
        rcases List.mem_map.mp ha with ⟨z, hz, hza⟩
        rcases List.mem_map.mp hz with ⟨w, hw, hwz⟩
        rcases List.mem_map.mp hb with ⟨u, hu, hub⟩
        rcases descChainsList_head cs u hu with ⟨d, hd, t, ht⟩
        rw [← hwz] at hza
        have hza2 : c.name :: w.1 = a := hza
        have hub2 : u.1 = b := hub
        rw [← hza2, ← hub2, ht]
        exact List.Lex.rel (hlt d hd)

end

/-- The chains of the repository entries of the specification-side
flattening are strictly increasing in the lexicographic order induced by
the comparator the tree was sorted with. -/
theorem specChains_sorted (le : String → String → Bool) (p : Project)
    (hok : treeOk p = true) (hs : sortedTreeBy le p) :
    List.Pairwise (List.Lex (strLtBy le))
      (((descChains p).filter fun x => x.2.isGitRepo).map fun x => x.1) :=
  List.Pairwise.sublist ((List.filter_sublist _).map _) (sorted_chains_lex le p hok hs)

/-- Writing back the element read at a valid index leaves a list
unchanged. -/
theorem set_getD_self {α : Type} : ∀ (l : List α) (i : Nat) (d : α),
    i < l.length → l.set i (l.getD i d) = l
  | [], i, d, h => absurd h (by simp)
  | a :: as, 0, d, _ => rfl
  | a :: as, i + 1, d, h => by
    show a :: as.set i ((a :: as).getD (i + 1) d) = a :: as
    rw [List.getD_cons_succ]
    rw [set_getD_self as i d (by simpa using h)]

/-- A fresh node chain is named after its first segment. -/
theorem newChain_name : ∀ (rest : List String) (path s : String),
    (newChain path s rest).name = s
  | [], _, _ => rfl
  | r :: rs, _, _ => rfl

/-- A fresh node chain built from usable segments is well-formed. -/
theorem newChain_treeOk : ∀ (rest : List String) (path s : String),
    segOk s = true → (∀ r ∈ rest, segOk r = true) →
    treeOk (newChain path s rest) = true
  | [], path, s, hs, _ => hs
  | r :: rs, path, s, hs, hrest => by
    rw [newChain, treeOk]
    rw [Bool.and_eq_true, Bool.and_eq_true]
    refine ⟨⟨hs, rfl⟩, ?_⟩
    rw [treeOkList, Bool.and_eq_true]
    refine ⟨?_, rfl⟩
    exact newChain_treeOk rs (path ++ "/" ++ r) r
      (hrest r (List.mem_cons_self r rs)) (fun x hx => hrest x (List.mem_cons_of_mem r hx))

/-- Replacing a node in place with one of the same name leaves the name
list unchanged. -/
theorem map_name_set (forest : List Project) (i : Nat) (q : Project)
    (hq : q.name = (forest.getD i (Project.mk "" "" false false none)).name)
    (hi : i < forest.length) :
    (forest.set i q).map Project.name = forest.map Project.name := by
  rw [List.map_set, hq]
  have hval : (forest.getD i (Project.mk "" "" false false none)).name =
      (forest.map Project.name).getD i "" := by
    rw [List.getD_eq_getElem?_getD, List.getD_eq_getElem?_getD, List.getElem?_map,
      List.getElem?_eq_getElem hi]
    rfl
  rw [hval]
  exact set_getD_self (forest.map Project.name) i "" (by simpa using hi)

/-- The node-map insertion preserves well-formedness and sibling-name
distinctness at every level. -/
theorem treeOk_insertSegs : ∀ (segs : List String) (pp : String) (forest : List Project),
    (∀ s ∈ segs, segOk s = true) →
    treeOkList forest = true → namesNodupB forest = true →
    treeOkList (insertSegs pp forest segs) = true ∧
      namesNodupB (insertSegs pp forest segs) = true := by
  intro segs
  induction segs with
  | nil => intro pp forest _ h1 h2; exact ⟨h1, h2⟩
  | cons s rest ih =>
    intro pp forest hseg hok hnd
    have hsegS : segOk s = true := hseg s (List.mem_cons_self s rest)
    have hsegR : ∀ r ∈ rest, segOk r = true :=
      fun r hr => hseg r (List.mem_cons_of_mem s hr)
    rw [insertSegs]
    cases hf : forest.findIdx? (fun n => n.name == s) with
    | none =>
      simp only [hf]
      constructor
      · rw [treeOkList_iff]
        intro p hp
        rcases List.mem_append.mp hp with hm | hnew
        · exact (treeOkList_iff forest).mp hok p hm
        · rcases List.mem_singleton.mp hnew with rfl
          exact newChain_treeOk rest _ s hsegS hsegR
      · rw [namesNodupB_iff, List.map_append]
        have hchain : List.map Project.name [newChain (pp ++ "/" ++ s) s rest] = [s] := by
          rw [List.map_cons, List.map_nil, newChain_name]
        rw [hchain]
        apply List.Nodup.append
        · exact (namesNodupB_iff forest).mp hnd
        · exact List.nodup_singleton s
        · intro a ha hb
          rcases List.mem_singleton.mp hb with rfl
          rcases List.mem_map.mp ha with ⟨z, hz, hzs⟩
          have hfalse := List.findIdx?_eq_none_iff.mp hf z hz
          rw [hzs] at hfalse
          simp at hfalse
    | some i =>
      simp only [hf]
      have hin : i < forest.length := by
        rcases List.findIdx?_eq_some_iff_getElem.mp hf with ⟨hi, _, _⟩
        exact hi
      have hnodemem : forest.getD i (Project.mk "" "" false false none) ∈ forest :=
        findIdx?_getD_mem forest _ i _ hf
      have hnodeok : treeOk (forest.getD i (Project.mk "" "" false false none)) = true :=
        (treeOkList_iff forest).mp hok _ hnodemem
      constructor
      · rw [treeOkList_iff]
        intro p hp
        rcases List.mem_or_eq_of_mem_set hp with hmem | rfl
        · exact (treeOkList_iff forest).mp hok p hmem
        · rcases hnd2 : forest.getD i (Project.mk "" "" false false none) with
            ⟨n2, p2, g2, h2, c2⟩
          rw [hnd2] at hnodeok
          cases rest with
          | nil =>
            simp only [hnd2, Project.name_mk, Project.path_mk,
              Project.hasNestedProjects_mk, Project.nestedProjects_mk]
            rcases c2 with _ | ch <;> exact hnodeok
          | cons r rs =>
            simp only [hnd2, Project.name_mk, Project.path_mk, Project.isGitRepo_mk,
              Project.hasNestedProjects_mk, Project.nestedProjects_mk]
            have hchildok : treeOkList (Option.getD c2 []) = true ∧
                namesNodupB (Option.getD c2 []) = true := by
              rcases c2 with _ | ch
              · exact ⟨rfl, rfl⟩
              · rw [treeOk, Bool.and_eq_true, Bool.and_eq_true] at hnodeok
                exact ⟨hnodeok.2, hnodeok.1.2⟩
            have hsegn2 : segOk n2 = true := by
              rcases c2 with _ | ch
              · exact hnodeok
              · rw [treeOk, Bool.and_eq_true, Bool.and_eq_true] at hnodeok
                exact hnodeok.1.1
            have hins := ih (pp ++ "/" ++ s) (Option.getD c2 []) hsegR
              hchildok.1 hchildok.2
            rw [treeOk, Bool.and_eq_true, Bool.and_eq_true]
            exact ⟨⟨hsegn2, hins.2⟩, hins.1⟩
      · have hkeep : ∀ q : Project,
            q.name = (forest.getD i (Project.mk "" "" false false none)).name →
            namesNodupB (forest.set i q) = true := by
          intro q hname
          rw [namesNodupB_iff, map_name_set forest i q hname hin, ← namesNodupB_iff]
          exact hnd
        apply hkeep
        cases rest with
        | nil => rfl
        | cons r rs => rfl

/-- The whole node-map fold of the scanner preserves well-formedness and
sibling-name distinctness. -/
theorem treeOk_foldl : ∀ (paths : List (List String)) (root : String)
    (forest : List Project),
    (∀ segs ∈ paths, ∀ s ∈ segs, segOk s = true) →
    treeOkList forest = true → namesNodupB forest = true →
    treeOkList (paths.foldl (fun f segs => insertSegs root f segs) forest) = true ∧
      namesNodupB (paths.foldl (fun f segs => insertSegs root f segs) forest) = true
  | [], root, forest, _, h1, h2 => ⟨h1, h2⟩
  | segs :: ps, root, forest, hin, h1, h2 => by
    rw [List.foldl_cons]
    have hstep := treeOk_insertSegs segs root forest
      (hin segs (List.mem_cons_self segs ps)) h1 h2
    exact treeOk_foldl ps root _
      (fun t ht s hs => hin t (List.mem_cons_of_mem segs ht) s hs) hstep.1 hstep.2

/-- The recursive child sort preserves well-formedness. -/
theorem treeOk_sortOneBy (le : String → String → Bool) :
    ∀ p : Project, treeOk p = true → treeOk (sortOneBy le p) = true := by
  intro p
  induction p using projInd with
  | h n pa g hn nested ihc =>
    rcases nested with _ | l
    · intro h
      exact h
    · intro hok
      rw [treeOk, Bool.and_eq_true, Bool.and_eq_true] at hok
      show treeOk (Project.mk n pa g hn
        (some (List.insertionSort (nameLeBy le) (sortEachBy le l)))) = true
      rw [treeOk, Bool.and_eq_true, Bool.and_eq_true]
      refine ⟨⟨hok.1.1, ?_⟩, ?_⟩
      · rw [namesNodupB_iff]
        have hpm : List.Perm
            (List.map Project.name (List.insertionSort (nameLeBy le) (sortEachBy le l)))
            (List.map Project.name (sortEachBy le l)) :=
          (List.perm_insertionSort (nameLeBy le) (sortEachBy le l)).map Project.name
        rw [List.Perm.nodup_iff hpm]
        have hsame : List.map Project.name (sortEachBy le l) =
            List.map Project.name l := by
          rw [sortEachBy_eq_map, List.map_map]
          exact List.map_congr_left fun x hx => sortOneBy_name le x
        rw [hsame]
        exact (namesNodupB_iff l).mp hok.1.2
      · rw [treeOkList_iff]
        intro q hq
        have hq2 := (List.mem_insertionSort (nameLeBy le)).mp hq
        rw [sortEachBy_eq_map] at hq2
        rcases List.mem_map.mp hq2 with ⟨x, hx, rfl⟩
        exact ihc x hx ((treeOkList_iff l).mp hok.2 x hx)

/-- Every root of a scanned tree is well-formed, given well-formed input
segments, whatever the comparator. -/
theorem buildProjectTreeBy_treeOk (le : String → String → Bool)
    (paths : List (List String)) (root : String)
    (hin : ∀ segs ∈ paths, ∀ s ∈ segs, segOk s = true) :
    ∀ p ∈ buildProjectTreeBy le paths root, treeOk p = true := by
  intro p hp
  rw [buildProjectTreeBy, sortProjectsBy] at hp
  have hp2 := (List.mem_insertionSort (nameLeBy le)).mp hp
  rw [sortEachBy_eq_map] at hp2
  rcases List.mem_map.mp hp2 with ⟨x, hx, rfl⟩
  apply treeOk_sortOneBy
  exact (treeOkList_iff _).mp (treeOk_foldl paths root [] hin rfl rfl).1 x hx

/-- Every root of a scanned tree is recursively sorted with respect to the
consistent comparator the sort used. -/
theorem buildProjectTreeBy_sortedTree (le : String → String → Bool)
    (htot : ∀ a b, le a b = true ∨ le b a = true)
    (htrans : ∀ a b c, le a b = true → le b c = true → le a c = true)
    (paths : List (List String)) (root : String) :
    ∀ p ∈ buildProjectTreeBy le paths root, sortedTreeBy le p := by
  intro p hp
  rw [buildProjectTreeBy, sortProjectsBy] at hp
  have hp2 := (List.mem_insertionSort (nameLeBy le)).mp hp
  rw [sortEachBy_eq_map] at hp2
  rcases List.mem_map.mp hp2 with ⟨x, _, rfl⟩
  exact sortedTreeBy_sortOneBy le htot htrans x

mutual

/-- Every strict descendant of a well-formed tree is well-formed. -/
theorem treeOk_descChains : ∀ p : Project, treeOk p = true →
    ∀ x ∈ descChains p, treeOk x.2 = true
  | .mk n pa g hn none, hok => by
    intro x hx
    rw [descChains] at hx
    exact absurd hx (List.not_mem_nil x)
  | .mk n pa g hn (some l), hok => by
    intro x hx
    rw [descChains] at hx
    rw [treeOk, Bool.and_eq_true, Bool.and_eq_true] at hok
    exact treeOkList_descChains l hok.2 x hx

/-- Every strict descendant of a well-formed forest is well-formed. -/
theorem treeOkList_descChains : ∀ l : List Project, treeOkList l = true →
    ∀ x ∈ descChainsList l, treeOk x.2 = true
  | [], _ => by
    intro x hx
    rw [descChainsList] at hx
    exact absurd hx (List.not_mem_nil x)
  | c :: cs, hok => by
    intro x hx
    rw [treeOkList, Bool.and_eq_true] at hok
    rw [descChainsList] at hx
    rcases List.mem_cons.mp hx with h | hx2
    · rw [h]
      exact hok.1
    · rcases List.mem_append.mp hx2 with hmap | hcs
      · rcases List.mem_map.mp hmap with ⟨y, hy, hyx⟩
        have hsnd : x.2 = y.2 := by rw [← hyx]
        rw [hsnd]
        exact treeOk_descChains c hok.1 y hy
      · exact treeOkList_descChains cs hok.2 x hcs

end

mutual

/-- Every strict descendant of a recursively sorted tree is recursively
sorted, for the same comparator. -/
theorem sortedTree_descChains (le : String → String → Bool) :
    ∀ p : Project, sortedTreeBy le p →
    ∀ x ∈ descChains p, sortedTreeBy le x.2
  | .mk n pa g hn none, hs => by
    intro x hx
    rw [descChains] at hx
    exact absurd hx (List.not_mem_nil x)
  | .mk n pa g hn (some l), hs => by
    intro x hx
    rw [descChains] at hx
    rw [sortedTreeBy] at hs
    exact sortedTreeList_descChains le l hs.2 x hx

/-- Every strict descendant of a recursively sorted forest is recursively
sorted, for the same comparator. -/
theorem sortedTreeList_descChains (le : String → String → Bool) :
    ∀ l : List Project, sortedTreeListBy le l →
    ∀ x ∈ descChainsList l, sortedTreeBy le x.2
  | [], _ => by
    intro x hx
    rw [descChainsList] at hx
    exact absurd hx (List.not_mem_nil x)
  | c :: cs, hs => by
    intro x hx
    rw [sortedTreeListBy] at hs
    rw [descChainsList] at hx
    rcases List.mem_cons.mp hx with h | hx2
    · rw [h]
      exact hs.1
    · rcases List.mem_append.mp hx2 with hmap | hcs
      · rcases List.mem_map.mp hmap with ⟨y, hy, hyx⟩
        have hsnd : x.2 = y.2 := by rw [← hyx]
        rw [hsnd]
        exact sortedTree_descChains le c hs.1 y hy
      · exact sortedTreeList_descChains le cs hs.2 x hcs

end

/-- Every entry of a flattening is marked as a repository. -/
theorem collectNested_isRepo (p : Project) (b : String) :
    ∀ e ∈ collectNestedGitProjects p b, e.isGitRepo = true := by
  intro e he
  rw [collectNestedGitProjects] at he
  rcases hn : p.nestedProjects with _ | l
  · rw [hn] at he
    exact absurd he (by simp)
  · rw [hn] at he
    exact (collectTraverseList_shape l "" e he).2.2

/--
Claim C1: for every tree produced by the scanner from well-formed relative
segment paths — sorting with the comparator order `le` that
`a.name.localeCompare(b.name)` realizes, assumed consistent (total and
transitive, as ICU collation is) — flattening any subtree node with
`collectNestedGitProjects` yields, entrywise in order, exactly the
`isGitRepo = true` strict descendants reachable through the node's
children (the node itself is excluded), each entry carrying as display
name the `/`-joined name segments from the node down to that descendant
and the descendant's path; every emitted entry is a repository, the
display names have no duplicates, and the emitted order is the
alphabetical depth-first order: the segment chains of the enumerated
repositories are strictly increasing in the lexicographic order induced
by that same comparator.
-/
theorem collectNested_flatten_spec (le : String → String → Bool)
    (htot : ∀ a b, le a b = true ∨ le b a = true)
    (htrans : ∀ a b c, le a b = true → le b c = true → le a c = true)
    (paths : List (List String)) (root : String)
    (hin : ∀ segs ∈ paths, ∀ s ∈ segs, segOk s = true)
    (p : Project) (hp : p ∈ buildProjectTreeBy le paths root)
    (q : Project) (hq : Subnode q p) (b : String) :
    (collectNestedGitProjects q b).map (fun e => (e.name, e.path)) = specFlatten q ∧
    (∀ e ∈ collectNestedGitProjects q b, e.isGitRepo = true) ∧
    ((collectNestedGitProjects q b).map (fun e => e.name)).Nodup ∧
    List.Pairwise (List.Lex (strLtBy le))
      (((descChains q).filter fun x => x.2.isGitRepo).map fun x => x.1) := by
  have hpok : treeOk p = true := buildProjectTreeBy_treeOk le paths root hin p hp
  have hps : sortedTreeBy le p :=
    buildProjectTreeBy_sortedTree le htot htrans paths root p hp
  have hqok : treeOk q = true := by
    rcases hq with rfl | hsub
    · exact hpok
    · rw [subnodes] at hsub
      rcases List.mem_map.mp hsub with ⟨x, hx, rfl⟩
      exact treeOk_descChains p hpok x hx
  have hqs : sortedTreeBy le q := by
    rcases hq with rfl | hsub
    · exact hps
    · rw [subnodes] at hsub
      rcases List.mem_map.mp hsub with ⟨x, hx, rfl⟩
      exact sortedTree_descChains le p hps x hx
  have hnames : ∀ c ∈ q.children, c.name ≠ "" := treeOk_children_names q hqok
  refine ⟨collectNestedGitProjects_spec q b hnames, collectNested_isRepo q b, ?_,
    specChains_sorted le q hqok hqs⟩
  have hmm : (collectNestedGitProjects q b).map (fun e => e.name) =
      ((collectNestedGitProjects q b).map fun e => (e.name, e.path)).map
        (fun x => x.1) := by
    rw [List.map_map]
    exact List.map_congr_left fun x hx => rfl
  rw [hmm, collectNestedGitProjects_spec q b hnames]
  exact specFlatten_names_nodup q hqok

/-- Witness for claim C1 on the concrete scan of the specification, at the
concrete code-point comparator: the container node found at the root
flattens to its two repositories with their own names as display names, in
depth-first order. -/
theorem collectNested_flatten_spec_witness :
    (∀ segs ∈ [["c", "b"], ["c", "a"], ["a"]], ∀ s ∈ segs, segOk s = true) ∧
    ((collectNestedGitProjects (Project.mk "c" "/R/c" false true
        (some [Project.mk "a" "/R/c/a" true false none,
               Project.mk "b" "/R/c/b" true false none])) "/R/c").map
      (fun e => (e.name, e.path)) =
        specFlatten (Project.mk "c" "/R/c" false true
          (some [Project.mk "a" "/R/c/a" true false none,
                 Project.mk "b" "/R/c/b" true false none]))) ∧
    specFlatten (Project.mk "c" "/R/c" false true
        (some [Project.mk "a" "/R/c/a" true false none,
               Project.mk "b" "/R/c/b" true false none])) =
      [("a", "/R/c/a"), ("b", "/R/c/b")] := by
  have hin : ∀ segs ∈ [["c", "b"], ["c", "a"], ["a"]], ∀ s ∈ segs, segOk s = true := by
    decide
  refine ⟨hin, ?_, rfl⟩
  have hmem : (Project.mk "c" "/R/c" false true
      (some [Project.mk "a" "/R/c/a" true false none,
             Project.mk "b" "/R/c/b" true false none])) ∈
      buildProjectTreeBy strLe [["c", "b"], ["c", "a"], ["a"]] "/R" := by
    rw [show buildProjectTreeBy strLe [["c", "b"], ["c", "a"], ["a"]] "/R" =
      [Project.mk "a" "/R/a" true false none,
       Project.mk "c" "/R/c" false true
         (some [Project.mk "a" "/R/c/a" true false none,
                Project.mk "b" "/R/c/b" true false none])] from rfl]
    exact List.mem_cons_of_mem _ (List.mem_cons_self _ _)
  exact (collectNested_flatten_spec strLe
    (fun a b => charListLe_total a.data b.data)
    (fun a b c => charListLe_trans a.data b.data c.data)
    [["c", "b"], ["c", "a"], ["a"]] "/R" hin _ hmem _ (Or.inl rfl) "/R/c").1

end DashCli
